import Mathlib

/-!
Shallow embedding of the `paper_nature` crawler (screening-and-acquisition
pipeline) and proofs about the claims of its specification.

Source files embedded: `crawler_app/screening.py`, `crawler_app/screening_flow.py`,
`crawler_app/crawl.py`, `crawler_app/download_flow.py`, `crawler_app/storage.py`,
`crawler_app/http_client.py`, `crawler_app/parser.py`, `crawler_app/utils.py`,
and the monolithic `crawler.py` where it differs.

Strings from Python are modelled as Lean `String` at the interface level; all
character-level work (`urlparse`, `str.replace`, `os.path.splitext`,
`safe_filename`, substring tests) is done on `List Char`, which matches
Python's view of a `str` as a sequence of characters.
-/

namespace PaperNature

/-! ## Character-level string utilities (models of Python `str` operations) -/

/-- Model of Python's `needle in haystack` substring test on char lists:
true iff `pat` occurs contiguously in `l`. -/
def containsSub (pat : List Char) : List Char → Bool
  | [] => pat.isEmpty
  | c :: rest => pat.isPrefixOf (c :: rest) || containsSub pat rest

/-- Model of Python's `str.lower()` restricted to ASCII (all strings the
crawler lowers are ASCII content types / hostnames). -/
def lowerL (l : List Char) : List Char := l.map Char.toLower

/-- Split a char list at the first occurrence of character `c`:
`some (before, after)` with `l = before ++ c :: after`, or `none`. -/
def splitFirstChar (c : Char) : List Char → Option (List Char × List Char)
  | [] => none
  | a :: rest =>
    if a = c then some ([], rest)
    else match splitFirstChar c rest with
      | some (pre, post) => some (a :: pre, post)
      | none => none

/-- Split a char list at the first occurrence of a (nonempty) pattern:
`some (before, after)` with `l = before ++ pat ++ after`, or `none`. -/
def splitFirstSub (pat : List Char) : List Char → Option (List Char × List Char)
  | [] => none
  | c :: rest =>
    if pat.isPrefixOf (c :: rest) then some ([], (c :: rest).drop pat.length)
    else match splitFirstSub pat rest with
      | some (pre, post) => some (c :: pre, post)
      | none => none

/-- Worker for `replaceAll`: fuel-indexed so the recursion is structural;
`replaceAll` supplies `l.length` fuel, enough for every match of a nonempty
pattern. -/
def replaceAllFuel (pat repl : List Char) : Nat → List Char → List Char
  | 0, l => l
  | fuel + 1, l =>
    match splitFirstSub pat l with
    | none => l
    | some (pre, post) => pre ++ repl ++ replaceAllFuel pat repl fuel post

/-- Model of Python's `str.replace(pat, repl)` for a nonempty pattern:
replace every non-overlapping occurrence of `pat` left to right, without
rescanning the replacement. -/
def replaceAll (pat repl l : List Char) : List Char :=
  replaceAllFuel pat repl l.length l

/-- Model of Python's `str.split(sep)` for a single-character separator.
Always returns at least one (possibly empty) piece, like Python. -/
def splitChar (c : Char) : List Char → List (List Char)
  | [] => [[]]
  | a :: rest =>
    match splitChar c rest with
    | piece :: pieces =>
      if a = c then [] :: piece :: pieces
      else (a :: piece) :: pieces
    | [] => [[a]]

/-- Span up to the first character in `stops`: `(before, rest-including-stop)`
(used for netloc extraction). -/
def spanUntilAny (stops : List Char) : List Char → List Char × List Char
  | [] => ([], [])
  | a :: rest =>
    if a ∈ stops then ([], a :: rest)
    else
      let r := spanUntilAny stops rest
      (a :: r.1, r.2)

/-- Model of Python's `str.strip(chars)`: remove leading and trailing
characters drawn from `chars`. -/
def stripChars (chars : List Char) (l : List Char) : List Char :=
  ((l.dropWhile (· ∈ chars)).reverse.dropWhile (· ∈ chars)).reverse

/-- Model of Python's `str.rstrip(chars)`. -/
def rstripChars (chars : List Char) (l : List Char) : List Char :=
  (l.reverse.dropWhile (· ∈ chars)).reverse

/-! ## `urllib.parse.urlparse` model

Faithful to the part of `urlsplit` the crawler exercises (absolute
`scheme://netloc/path?query#fragment` URLs and scheme-less strings): the
scheme is everything before the first `://`; the netloc runs to the first
`/`, `?` or `#`; then the fragment is split off at the first `#`, and the
query at the first `?` of what remains. -/

structure UrlPartsL where
  scheme : List Char
  netloc : List Char
  path : List Char
  query : List Char
  fragment : List Char
  deriving Repr, DecidableEq

/-- Split fragment then query from the part after the netloc. -/
def splitPathQueryFragment (rest : List Char) : List Char × List Char × List Char :=
  let (noFrag, frag) :=
    match splitFirstChar '#' rest with
    | some (a, b) => (a, b)
    | none => (rest, [])
  let (path, query) :=
    match splitFirstChar '?' noFrag with
    | some (a, b) => (a, b)
    | none => (noFrag, [])
  (path, query, frag)

def urlparseL (u : List Char) : UrlPartsL :=
  match splitFirstSub [':', '/', '/'] u with
  | some (scheme, rest) =>
    let s := spanUntilAny ['/', '?', '#'] rest
    let (path, query, frag) := splitPathQueryFragment s.2
    ⟨lowerL scheme, s.1, path, query, frag⟩
  | none =>
    let (path, query, frag) := splitPathQueryFragment u
    ⟨[], [], path, query, frag⟩

/-! ## `os.path` models -/

/-- Model of `os.path.basename`: the part after the last `/`. -/
def basenameL (p : List Char) : List Char :=
  (p.reverse.takeWhile (· ≠ '/')).reverse

/-- Extension split of a path's base name, following CPython's rule: the
extension starts at the last dot, provided some earlier character of the
base name is not a dot (so `.bashrc` and `..git` have no extension). -/
def splitextBase (base : List Char) : List Char × List Char :=
  match splitFirstChar '.' base.reverse with
  | none => (base, [])
  | some (revExtTail, revStem) =>
    let stem := revStem.reverse
    let ext := '.' :: revExtTail.reverse
    if stem.any (fun c => c ≠ '.') then (stem, ext) else (base, [])

/-- Model of `os.path.splitext` (extension component only differs from the
base-name rule by ignoring everything before the last `/`). -/
def splitextL (p : List Char) : List Char × List Char :=
  let base := basenameL p
  let pre := p.take (p.length - base.length)
  let (stem, ext) := splitextBase base
  (pre ++ stem, ext)

/-! ## `crawler_app/utils.py` -/

def isSafeChar (c : Char) : Bool :=
  c.isAlpha || c.isDigit || c = '.' || c = '_' || c = '-'

/-- Worker for `subDisallowed`: `inRun` records whether the previous
character was part of a disallowed run (whose underscore is already
emitted). -/
def subDisallowedGo (inRun : Bool) : List Char → List Char
  | [] => []
  | c :: rest =>
    if isSafeChar c then c :: subDisallowedGo false rest
    else if inRun then subDisallowedGo true rest
    else '_' :: subDisallowedGo true rest

/-- Model of `re.sub(r"[^A-Za-z0-9._-]+", "_", value)`: each maximal run of
disallowed characters becomes a single underscore. -/
def subDisallowed (l : List Char) : List Char :=
  subDisallowedGo false l

/-- `safe_filename` from `crawler_app/utils.py` (and `crawler.py`). -/
def safeFilenameL (value : List Char) (maxLen : Nat) : List Char :=
  let cleaned := stripChars ['.', '_', '-'] (subDisallowed value)
  if cleaned = [] then "unknown".toList else cleaned.take maxLen

def safe_filename (value : String) : String :=
  (safeFilenameL value.toList 180).asString

/-! ## `crawler_app/screening.py` -/

/-- `head_info` answers: `(status_code, content_type, size)`; a fetcher state
is modelled by the pure function it realizes during one screening pass. -/
abbrev HeadFn := String → Option Nat × String × Option Nat

/-- `is_html_content` from `crawler_app/screening.py`. -/
def is_html_content (content_type : String) : Bool :=
  containsSub "text/html".toList (lowerL content_type.toList)

/-- `screen_resource` from `crawler_app/screening.py` (the `crawler.py` copy
only adds two unused parameters). `allowed` is `RobotsCache.allowed`. -/
def screen_resource (allowed : String → Bool) (head : HeadFn) (url : String) :
    String × String :=
  if ¬ allowed url then ("manual_required", "robots_disallowed")
  else
    let (status, content_type, _) := head url
    match status with
    | none => ("unavailable", "status=None")
    | some s =>
      if s ≥ 400 then ("unavailable", "status=" ++ Nat.repr s)
      else if is_html_content content_type then
        ("unavailable", "content_type=" ++ content_type)
      else ("downloadable", "")

/-- The HEAD requests `screen_resource` issues: exactly one probe of `url`
unless the robots policy already disallowed it. -/
def screen_resource_probes (allowed : String → Bool) (url : String) : List String :=
  if allowed url then [url] else []

/-- `repo_zip_name` from `crawler_app/screening.py`. -/
def repo_zip_name (repo_url : String) : String :=
  let repo_name := basenameL (rstripChars ['/'] repo_url.toList)
  let repo_name := if repo_name = [] then "code".toList else repo_name
  (safeFilenameL repo_name 180).asString ++ ".zip"

/-- `github_zip_urls` from `crawler_app/screening.py`. -/
def github_zip_urls (repo_url : String) : List String :=
  let parts := (splitChar '/' (urlparseL repo_url.toList).path).filter (· ≠ [])
  match parts with
  | owner :: repo :: _ =>
    [ "https://codeload.github.com/" ++ owner.asString ++ "/" ++ repo.asString ++ "/zip/HEAD",
      "https://codeload.github.com/" ++ owner.asString ++ "/" ++ repo.asString ++ "/zip/refs/heads/main",
      "https://codeload.github.com/" ++ owner.asString ++ "/" ++ repo.asString ++ "/zip/refs/heads/master" ]
  | _ => []

/-- Inner loop of `find_working_zip_url` over one repo's zip URLs, carrying
the `saw_manual` flag and returning the issued HEAD probes as a trace. -/
def tryZipUrls (allowed : String → Bool) (head : HeadFn) :
    List String → Bool → Option String × Bool × List String
  | [], saw => (none, saw, [])
  | u :: rest, saw =>
    let st := (screen_resource allowed head u).1
    let probed := screen_resource_probes allowed u
    if st = "downloadable" then (some u, saw, probed)
    else
      let res := tryZipUrls allowed head rest (saw || st = "manual_required")
      (res.1, res.2.1, probed ++ res.2.2)

/-- Outer loop of `find_working_zip_url` over the repo list; `none` in the
first component means the loop fell through without returning. -/
def fwzu_go (allowed : String → Bool) (head : HeadFn) :
    List String → Bool → Option (Option String × Option String × String) × Bool × List String
  | [], saw => (none, saw, [])
  | r :: rs, saw =>
    let t := tryZipUrls allowed head (github_zip_urls r) saw
    match t.1 with
    | some zu => (some (some zu, some r, "downloadable"), t.2.1, t.2.2)
    | none =>
      if t.2.1 then (some (none, some r, "manual_required"), t.2.1, t.2.2)
      else
        let next := fwzu_go allowed head rs t.2.1
        (next.1, next.2.1, t.2.2 ++ next.2.2)

/-- `find_working_zip_url` from `crawler_app/screening.py`, paired with the
list of HEAD-probed URLs in probe order. -/
def find_working_zip_url (allowed : String → Bool) (head : HeadFn)
    (repo_urls : List String) :
    (Option String × Option String × String) × List String :=
  match fwzu_go allowed head repo_urls false with
  | (some res, _, tr) => (res, tr)
  | (none, _, tr) => ((none, repo_urls.head?, "manual_required"), tr)

/-- Reference function for C3 written from the claim's words: per repo in
order, the first zip URL probing downloadable wins; otherwise a repo any of
whose URLs probed manual-required is returned as manual-required after its
three URLs, never reaching later repos; exhausting all repos falls back to
the first repo (or none) with manual-required. -/
def fwzu_claim (allowed : String → Bool) (head : HeadFn) (orig : List String) :
    List String → Option String × Option String × String
  | [] => (none, orig.head?, "manual_required")
  | r :: rs =>
    let urls := github_zip_urls r
    match urls.find? (fun u => (screen_resource allowed head u).1 = "downloadable") with
    | some u => (some u, some r, "downloadable")
    | none =>
      if urls.any (fun u => (screen_resource allowed head u).1 = "manual_required") then
        (none, some r, "manual_required")
      else fwzu_claim allowed head orig rs

def find_working_zip_url_claim (allowed : String → Bool) (head : HeadFn)
    (repo_urls : List String) : Option String × Option String × String :=
  fwzu_claim allowed head repo_urls repo_urls

/-! ## `crawler_app/models.py` -/

structure JournalConfig where
  name : String
  slug : String
  category : String
  /-- `list_url_template.format(page=p)` modelled as the function it denotes. -/
  list_url : Nat → String

structure ESMResource where
  url : String
  link_text : String
  filename : String
  category : String
  deriving DecidableEq, Repr

/-- `ArticleData`; publication dates are modelled by the year, the only
component the screening flow ever reads (`published.year`). -/
structure ArticleData where
  journal : String
  category : String
  url : String
  title : String
  published_date : String
  doi : Option String
  github_repos : List String
  pdf_url : Option String
  esm_resources : List ESMResource
  deriving DecidableEq, Repr

structure ScreeningResult where
  article : ArticleData
  code_zip_url : Option String
  code_repo : String
  peer_review_resource : ESMResource
  pdf_status : String
  peer_review_status : String
  code_status : String
  deriving DecidableEq, Repr

/-! ## `crawler_app/screening_flow.py`

The environment collects the external collaborators (robots policy, fetcher,
page extractor) as the pure functions they realize during one run. The third
result component is the trace of attempted network requests (listing GETs,
article GETs, HEAD probes), used to state the no-refetch/no-request claims. -/

structure ScreenEnv where
  allowed : String → Bool
  /-- `fetch_text`: `some html`, or `none` when it raises. A call counts as a
  network request either way. -/
  fetch_text : String → Option String
  parse_listing : String → String → List (String × Int)
  extract_article : JournalConfig → String → String → ArticleData
  head : HeadFn

structure ScreenState where
  candidates : List ScreeningResult
  url_cache : List (String × String)
  deriving Repr

/-- `article_slug = safe_filename(urlparse(article_url).path.strip("/").split("/")[-1])`. -/
def article_slug_of (article_url : String) : String :=
  let path := (urlparseL article_url.toList).path
  let segs := splitChar '/' (stripChars ['/'] path)
  (safeFilenameL (segs.getLast?.getD []) 180).asString

/-- Python truthiness of `url_cache.get(article_url)`. -/
def cachedReasonTruthy (cache : List (String × String)) (url : String) : Bool :=
  match cache.lookup url with
  | some r => r ≠ ""
  | none => false

/-- The entry loop of `screen_journal` over one page's parsed listing.
Returns the updated state, the `stop_due_to_year` flag, and the request
trace. -/
def screenEntries (env : ScreenEnv) (journal : JournalConfig) (remaining : Nat)
    (start_year end_year : Int) (existing_slugs : List String) :
    List (String × Int) → ScreenState → ScreenState × Bool × List String
  | [], st => (st, false, [])
  | (article_url, year) :: rest, st =>
    if year < start_year then (st, true, [])
    else if year > end_year then
      screenEntries env journal remaining start_year end_year existing_slugs rest st
    else if remaining ≤ st.candidates.length then (st, false, [])
    else if cachedReasonTruthy st.url_cache article_url then
      screenEntries env journal remaining start_year end_year existing_slugs rest st
    else if ¬ env.allowed article_url then
      screenEntries env journal remaining start_year end_year existing_slugs rest
        { st with url_cache := (article_url, "robots_disallowed") :: st.url_cache }
    else if article_slug_of article_url ∈ existing_slugs then
      screenEntries env journal remaining start_year end_year existing_slugs rest st
    else
      match env.fetch_text article_url with
      | none =>
        let t := screenEntries env journal remaining start_year end_year existing_slugs rest st
        (t.1, t.2.1, article_url :: t.2.2)
      | some html =>
        let article := env.extract_article journal article_url html
        if article.github_repos = [] then
          let t := screenEntries env journal remaining start_year end_year existing_slugs rest
            { st with url_cache := (article_url, "missing_github_link") :: st.url_cache }
          (t.1, t.2.1, article_url :: t.2.2)
        else
          match article.pdf_url with
          | none =>
            let t := screenEntries env journal remaining start_year end_year existing_slugs rest
              { st with url_cache := (article_url, "missing_pdf_link") :: st.url_cache }
            (t.1, t.2.1, article_url :: t.2.2)
          | some pdf_url =>
            match article.esm_resources.find? (fun r => r.category = "peer_review") with
            | none =>
              let t := screenEntries env journal remaining start_year end_year existing_slugs rest
                { st with url_cache := (article_url, "missing_peer_review_file") :: st.url_cache }
              (t.1, t.2.1, article_url :: t.2.2)
            | some peer_review_resource =>
              let pdf_status := (screen_resource env.allowed env.head pdf_url).1
              let tr1 := article_url :: screen_resource_probes env.allowed pdf_url
              if pdf_status = "unavailable" then
                let t := screenEntries env journal remaining start_year end_year existing_slugs rest st
                (t.1, t.2.1, tr1 ++ t.2.2)
              else
                let review_status :=
                  (screen_resource env.allowed env.head peer_review_resource.url).1
                let tr2 := tr1 ++ screen_resource_probes env.allowed peer_review_resource.url
                if review_status = "unavailable" then
                  let t := screenEntries env journal remaining start_year end_year existing_slugs rest st
                  (t.1, t.2.1, tr2 ++ t.2.2)
                else
                  let z := find_working_zip_url env.allowed env.head article.github_repos
                  let tr3 := tr2 ++ z.2
                  match z.1.2.1 with
                  | none =>
                    let t := screenEntries env journal remaining start_year end_year existing_slugs rest st
                    (t.1, t.2.1, tr3 ++ t.2.2)
                  | some code_repo =>
                    let cand : ScreeningResult :=
                      { article := article
                        code_zip_url := z.1.1
                        code_repo := code_repo
                        peer_review_resource := peer_review_resource
                        pdf_status := pdf_status
                        peer_review_status := review_status
                        code_status := z.1.2.2 }
                    let t := screenEntries env journal remaining start_year end_year existing_slugs rest
                      { st with candidates := st.candidates ++ [cand] }
                    (t.1, t.2.1, tr3 ++ t.2.2)

/-- The page loop of `screen_journal`; `fuel` is `max_pages - pages`, the
number of iterations the `pages < max_pages` guard still admits, and
`page_next` the next page number the template is instantiated with. -/
def screenPages (env : ScreenEnv) (journal : JournalConfig) (remaining : Nat)
    (start_year end_year : Int) (existing_slugs : List String) :
    Nat → Nat → ScreenState → ScreenState × List String
  | 0, _, st => (st, [])
  | fuel + 1, page_next, st =>
    if remaining ≤ st.candidates.length then (st, [])
    else
      let list_url := journal.list_url page_next
      if ¬ env.allowed list_url then (st, [])
      else
        match env.fetch_text list_url with
        | none => (st, [list_url])
        | some listing_html =>
          let entries := env.parse_listing listing_html "https://www.nature.com"
          if entries = [] then (st, [list_url])
          else
            let e := screenEntries env journal remaining start_year end_year existing_slugs
              entries st
            if e.2.1 then (e.1, list_url :: e.2.2)
            else
              let next := screenPages env journal remaining start_year end_year existing_slugs
                fuel (page_next + 1) e.1
              (next.1, (list_url :: e.2.2) ++ next.2)

/-- `screen_journal` from `crawler_app/screening_flow.py`: returns the
candidates, the final negative-URL cache, and the request trace. -/
def screen_journal (env : ScreenEnv) (journal : JournalConfig) (remaining : Nat)
    (start_year end_year : Int) (max_pages : Nat) (existing_slugs : List String)
    (url_cache : List (String × String)) :
    List ScreeningResult × List (String × String) × List String :=
  let r := screenPages env journal remaining start_year end_year existing_slugs
    max_pages 1 ⟨[], url_cache⟩
  (r.1.candidates, r.1.url_cache, r.2)

/-! ## `crawler_app/parser.py`: `normalize_github_repo` -/

/-- `normalize_github_repo` at the character-list level. Note that Python's
`parts[1].replace(".git", "")` removes every non-overlapping occurrence of
`.git`, not only a suffix. -/
def normalizeGithubRepoL (url : List Char) : Option (List Char) :=
  let parsed := urlparseL url
  if lowerL parsed.netloc = "github.com".toList ∨
      lowerL parsed.netloc = "www.github.com".toList then
    match (splitChar '/' parsed.path).filter (· ≠ []) with
    | owner :: repo :: _ =>
      some ("https://github.com/".toList ++ owner ++ '/' :: replaceAll ".git".toList [] repo)
    | _ => none
  else none

def normalize_github_repo (url : String) : Option String :=
  (normalizeGithubRepoL url.toList).map List.asString

/-! ## Filesystem model

Paths are lists of `os.path.join`-ed segments; the filesystem is the set
(list) of existing paths. `makedirs` creates a directory and its ancestors;
`rmtree` removes a path together with everything below it. -/

abbrev Path := List String

def makedirs (fs : List Path) (p : Path) : List Path :=
  (List.range p.length).map (fun i => p.take (i + 1)) ++ fs

/-- `cleanup_article_dir` from `crawler_app/storage.py`: `shutil.rmtree`,
removing the path and its whole subtree. -/
def cleanup_article_dir (fs : List Path) (p : Path) : List Path :=
  fs.filter (fun q => ¬ p.isPrefixOf q)

/-- A well-formed on-disk state: every nonempty ancestor of an existing path
exists too (a file cannot exist without its parent directories). -/
def ancestorClosed (fs : List Path) : Prop :=
  ∀ p ∈ fs, ∀ q : Path, q ≠ [] → q <+: p → q ∈ fs

/-- `os.path.join` on already-joined string paths (relative second operand,
as the summary writer always passes). -/
def path_join (a b : String) : String :=
  if b.toList.head? = some '/' then b
  else if a = "" then b
  else if a.toList.getLast? = some '/' then a ++ b
  else a ++ "/" ++ b

def joinPath (p : Path) : String :=
  match p with
  | [] => ""
  | a :: rest => rest.foldl path_join a

/-! ## `crawler_app/storage.py`: metadata records and the summary CSV -/

structure OutputMap where
  article_dir : String
  pdf : String
  code_zip : String
  supplementary_files : List String
  data_files : List String
  peer_review_file : String
  deriving DecidableEq, Repr

structure MetaRecord where
  journal : String
  category : String
  title : String
  url : String
  published_date : String
  doi : String
  github_repos : List String
  used_github_repo : String
  pdf_url : String
  status_pdf : String
  status_peer_review : String
  status_code : String
  manual_required : List String
  output : OutputMap
  deriving DecidableEq, Repr

structure SummaryRow where
  category : String
  article_slug : String
  title : String
  url : String
  pdf_path : String
  review_path : String
  code_path : String
  deriving DecidableEq, Repr

/-- `resolve_output_path` from `crawler_app/storage.py`. -/
def resolve_output_path (article_dir relative_path : String) (fallback : Option String) :
    String :=
  if relative_path ≠ "" then path_join article_dir relative_path
  else match fallback with
    | some f => path_join article_dir f
    | none => ""

def summary_row (record : MetaRecord) : SummaryRow :=
  let article_dir := record.output.article_dir
  { category := record.category
    article_slug := (basenameL article_dir.toList).asString
    title := record.title
    url := record.url
    pdf_path := resolve_output_path article_dir record.output.pdf
      (some "pdf_papers/paper.pdf")
    review_path := resolve_output_path article_dir record.output.peer_review_file
      (some "supplementary_materials/Peer_Review_File.pdf")
    code_path := resolve_output_path article_dir record.output.code_zip none }

/-- `write_summary_csv` from `crawler_app/storage.py` (lines 93-131): a row
per record with a nonempty `article_dir`; no on-disk existence check. -/
def write_summary_csv_app (records : List MetaRecord) : List SummaryRow :=
  records.filterMap (fun record =>
    if record.output.article_dir = "" then none
    else some (summary_row record))

/-- `write_summary_csv` from `crawler.py` (lines 604-644): additionally skips
any record whose pdf, review or code path does not exist on disk.
`fsExists` is `os.path.exists`. -/
def write_summary_csv_legacy (fsExists : String → Bool) (records : List MetaRecord) :
    List SummaryRow :=
  records.filterMap (fun record =>
    if record.output.article_dir = "" then none
    else
      let row := summary_row record
      if fsExists row.pdf_path ∧ fsExists row.review_path ∧ fsExists row.code_path then
        some row
      else none)

/-! ## Negative-URL cache persistence

`load_url_cache` and `save_url_cache` are imported by `crawler_app/crawl.py`
from `crawler_app/storage.py` but are absent from the source tree; only their
caller exists. -/

abbrev UrlCache := List (String × String)

/-- The persisted per-journal cache files, keyed by `(base_dir, slug)`. -/
abbrev UrlCacheStore := List ((String × String) × UrlCache)

/-- Modelled from the spec: `load_url_cache` (missing from
`crawler_app/storage.py`) reads the persisted negative-URL cache — "persisted
mapping URL→reason, loaded/saved once per journal per run" (§4.5) — for one
journal, empty when none was saved yet. -/
def load_url_cache (store : UrlCacheStore) (base_dir slug : String) : UrlCache :=
  (store.lookup (base_dir, slug)).getD []

/-- Modelled from the spec: `save_url_cache` (missing from
`crawler_app/storage.py`) persists one journal's negative-URL cache,
replacing the stored mapping. -/
def save_url_cache (store : UrlCacheStore) (base_dir slug : String) (cache : UrlCache) :
    UrlCacheStore :=
  ((base_dir, slug), cache) :: store

/-! ## `crawler_app/download_flow.py` -/

structure DlEnv where
  allowed : String → Bool
  /-- Whether `fetcher.download_file(url, ...)` succeeds or raises. -/
  download_ok : String → Bool

structure DlState where
  fs : List Path
  /-- Roots passed to `cleanup_article_dir`, in order (the rollbacks). -/
  deletions : List Path
  /-- URLs passed to `fetcher.download_file`, in order. -/
  requests : List String

/-- `ensure_article_dirs` from `crawler_app/storage.py`: creates the article
root and its four subdirectories. -/
def ensure_article_dirs (fs : List Path) (article_dir : Path) : List Path :=
  makedirs (makedirs (makedirs (makedirs (makedirs fs article_dir)
    (article_dir ++ ["pdf_papers"])) (article_dir ++ ["code"]))
    (article_dir ++ ["supplementary_materials"])) (article_dir ++ ["data"])

/-- `fetcher.download_file` effect on the filesystem: ensures the parent
directory, then either writes the destination file (success) or raises
(failure; modelled as writing nothing). Returns success and the new state. -/
def download_file (env : DlEnv) (st : DlState) (url : String) (dest : Path) :
    Bool × DlState :=
  let fs := makedirs st.fs dest.dropLast
  if env.download_ok url then
    (true, { st with fs := dest :: fs, requests := st.requests ++ [url] })
  else
    (false, { st with fs := fs, requests := st.requests ++ [url] })

/-- State of the supplementary/data resource loop of `download_candidates`. -/
structure EsmAcc where
  supp_paths : List Path
  data_paths : List Path
  peer_review_path : Option Path
  manual_required : List String
  st : DlState

/-- Bookkeeping shared by the exists- and downloaded- branches of the
resource loop in `download_candidates`. -/
def esmRecordPath (resource : ESMResource) (dest : Path) (acc : EsmAcc) : EsmAcc :=
  if resource.category = "data" then { acc with data_paths := acc.data_paths ++ [dest] }
  else if resource.category = "peer_review" ∧ resource.filename = "Peer_Review_File.pdf" then
    { acc with peer_review_path := some dest, supp_paths := acc.supp_paths ++ [dest] }
  else { acc with supp_paths := acc.supp_paths ++ [dest] }

/-- The `for resource in article.esm_resources` loop of `download_candidates`. -/
def esmLoop (env : DlEnv) (article_dir : Path) (review_status : String) :
    List ESMResource → EsmAcc → EsmAcc
  | [], acc => acc
  | resource :: rest, acc =>
    if resource.category = "peer_review" ∧ review_status ≠ "downloadable" then
      esmLoop env article_dir review_status rest acc
    else if ¬ env.allowed resource.url then
      esmLoop env article_dir review_status rest
        { acc with manual_required := acc.manual_required ++ [resource.category] }
    else
      let target := if resource.category = "data" then "data" else "supplementary_materials"
      let dest := article_dir ++ [target, resource.filename]
      if acc.st.fs.contains dest then
        esmLoop env article_dir review_status rest (esmRecordPath resource dest acc)
      else
        let d := download_file env acc.st resource.url dest
        if d.1 then
          esmLoop env article_dir review_status rest
            (esmRecordPath resource dest { acc with st := d.2 })
        else
          esmLoop env article_dir review_status rest { acc with st := d.2 }

/-- `build_metadata_record` from `crawler_app/storage.py` (the fields the
claims consume; `esm_mapping`/`esm_resources` echoes are omitted). -/
def build_metadata_record (article : ArticleData) (used_repo : String)
    (pdf_status review_status code_status : String) (manual_required : List String)
    (article_dir : Path) (code_zip_path : Option Path) (supp_paths data_paths : List Path)
    (peer_review_path : Option Path) (peer_review_name : String) (dry_run : Bool) :
    MetaRecord :=
  { journal := article.journal
    category := article.category
    title := article.title
    url := article.url
    published_date := article.published_date
    doi := article.doi.getD ""
    github_repos := article.github_repos
    used_github_repo := used_repo
    pdf_url := article.pdf_url.getD ""
    status_pdf := pdf_status
    status_peer_review := review_status
    status_code := code_status
    manual_required := manual_required
    output :=
      { article_dir := joinPath article_dir
        pdf := if ¬ dry_run then "pdf_papers/paper.pdf" else ""
        code_zip :=
          match code_zip_path with
          | some p => if ¬ dry_run then path_join "code" (p.getLast?.getD "") else ""
          | none => ""
        supplementary_files :=
          if ¬ dry_run then
            supp_paths.map (fun p => path_join "supplementary_materials" (p.getLast?.getD ""))
          else []
        data_files :=
          if ¬ dry_run then data_paths.map (fun p => path_join "data" (p.getLast?.getD ""))
          else []
        peer_review_file :=
          match peer_review_path with
          | some p => path_join "supplementary_materials" (p.getLast?.getD "")
          | none =>
            if peer_review_name ≠ "" then
              path_join "supplementary_materials" peer_review_name
            else "" } }

/-- The rollback of `download_candidates`: `cleanup_article_dir` on the
article directory, recorded in the deletion log. -/
def rollback (st : DlState) (article_dir : Path) : DlState :=
  { st with fs := cleanup_article_dir st.fs article_dir, deletions := st.deletions ++ [article_dir] }

/-- The PDF stage of `download_candidates`: `none` in the first component
means the candidate is abandoned (`continue`); else the updated `pdf_status`
and the manual-required additions. -/
def pdfStageFn (env : DlEnv) (st : DlState) (result : ScreeningResult)
    (article_dir pdf_path : Path) (article_dir_exists : Bool) :
    Option (String × List String) × DlState :=
  if st.fs.contains pdf_path then (some ("present", []), st)
  else if result.pdf_status = "downloadable" then
    if env.allowed (result.article.pdf_url.getD "") then
      let d := download_file env st (result.article.pdf_url.getD "") pdf_path
      if d.1 then (some ("downloaded", []), d.2)
      else
        if ¬ article_dir_exists then (none, rollback d.2 article_dir)
        else (none, d.2)
    else (some ("manual_required", ["pdf"]), st)
  else (some (result.pdf_status, ["pdf"]), st)

/-- The code-archive stage of `download_candidates`, same shape as the PDF
stage. -/
def codeStageFn (env : DlEnv) (st : DlState) (result : ScreeningResult)
    (article_dir code_zip_path : Path) (article_dir_exists : Bool) :
    Option (String × List String) × DlState :=
  if st.fs.contains code_zip_path then (some ("present", []), st)
  else
    match result.code_zip_url with
    | some code_zip_url =>
      if result.code_status = "downloadable" then
        let d := download_file env st code_zip_url code_zip_path
        if d.1 then (some ("downloaded", []), d.2)
        else
          if ¬ article_dir_exists then (none, rollback d.2 article_dir)
          else (none, d.2)
      else (some ("manual_required", ["code"]), st)
    | none => (some ("manual_required", ["code"]), st)

/-- One candidate's processing inside `download_candidates`; `none` means the
article was abandoned (`continue`). -/
def processCandidate (env : DlEnv) (journal : JournalConfig) (base_dir : String)
    (dry_run : Bool) (result : ScreeningResult) (st : DlState) :
    Option MetaRecord × DlState :=
  let article := result.article
  let peer_review_name := result.peer_review_resource.filename
  let article_slug := article_slug_of article.url
  let category_dir : Path := [base_dir, journal.category]
  let article_dir := category_dir ++ [article_slug]
  let article_dir_exists := st.fs.contains article_dir
  let st := { st with fs := ensure_article_dirs st.fs article_dir }
  let pdf_path := article_dir ++ ["pdf_papers", "paper.pdf"]
  let metadata_path := article_dir ++ ["metadata.json"]
  let peer_review_expected := article_dir ++ ["supplementary_materials", peer_review_name]
  let peer0 : Option Path × String × List String :=
    if st.fs.contains peer_review_expected then
      (some peer_review_expected, "present", [])
    else if result.peer_review_status = "manual_required" then
      (none, result.peer_review_status, ["peer_review"])
    else (none, result.peer_review_status, [])
  let peer_review_path := peer0.1
  let review_status := peer0.2.1
  let manual_required := peer0.2.2
  if dry_run then
    let record := build_metadata_record article result.code_repo result.pdf_status
      review_status result.code_status manual_required article_dir none [] []
      peer_review_path peer_review_name true
    (some record, { st with fs := metadata_path :: st.fs })
  else
    match pdfStageFn env st result article_dir pdf_path article_dir_exists with
    | (none, st) => (none, st)
    | (some (pdf_status, pdfManual), st) =>
      let manual_required := manual_required ++ pdfManual
      let zip_name := repo_zip_name result.code_repo
      let code_zip_path := article_dir ++ ["code", zip_name]
      match codeStageFn env st result article_dir code_zip_path article_dir_exists with
      | (none, st) => (none, st)
      | (some (code_status, codeManual), st) =>
          let manual_required := manual_required ++ codeManual
          let acc := esmLoop env article_dir review_status article.esm_resources
            ⟨[], [], peer_review_path, manual_required, st⟩
          let st := acc.st
          if acc.peer_review_path = none ∧ review_status ≠ "manual_required" then
            if ¬ article_dir_exists then (none, rollback st article_dir)
            else (none, st)
          else
            let record := build_metadata_record article result.code_repo pdf_status
              review_status code_status acc.manual_required article_dir
              (some code_zip_path) acc.supp_paths acc.data_paths acc.peer_review_path
              peer_review_name false
            (some record, { st with fs := metadata_path :: st.fs })

/-- The candidate loop of `download_candidates`. -/
def downloadGo (env : DlEnv) (journal : JournalConfig) (base_dir : String)
    (dry_run : Bool) (limit : Nat) :
    List ScreeningResult → List MetaRecord → DlState → List MetaRecord × DlState
  | [], recs, st => (recs, st)
  | c :: rest, recs, st =>
    if limit ≤ recs.length then (recs, st)
    else
      match processCandidate env journal base_dir dry_run c st with
      | (some r, st') => downloadGo env journal base_dir dry_run limit rest (recs ++ [r]) st'
      | (none, st') => downloadGo env journal base_dir dry_run limit rest recs st'

/-- `download_candidates` from `crawler_app/download_flow.py`. -/
def download_candidates (env : DlEnv) (journal : JournalConfig)
    (candidates : List ScreeningResult) (limit : Nat) (base_dir : String)
    (dry_run : Bool) (st : DlState) : List MetaRecord × DlState :=
  downloadGo env journal base_dir dry_run limit candidates [] st

/-! ## `crawler_app/crawl.py` -/

/-- Lexicographic (code-point) string order, as Python's `sorted` uses. -/
def lexLe : List Char → List Char → Bool
  | [], _ => true
  | _ :: _, [] => false
  | a :: as, b :: bs => if a = b then lexLe as bs else decide (a < b)

def pathLe (p q : Path) : Bool := lexLe (joinPath p).toList (joinPath q).toList

def insertSorted (x : Path) : List Path → List Path
  | [] => [x]
  | y :: ys => if pathLe x y then x :: y :: ys else y :: insertSorted x ys

/-- `sorted` on paths (insertion sort; the order, not the algorithm, is what
the source relies on). -/
def sortPaths : List Path → List Path
  | [] => []
  | x :: xs => insertSorted x (sortPaths xs)

/-- `list_existing_article_dirs` from `crawler_app/storage.py`: immediate
subdirectories of the category directory that contain a `metadata.json`,
sorted (by joined path). -/
def list_existing_article_dirs (fs : List Path) (category_dir : Path) : List Path :=
  let subs := (fs.filter (fun p =>
    p.length = category_dir.length + 1 ∧ category_dir.isPrefixOf p ∧
      fs.contains (p ++ ["metadata.json"]))).dedup
  sortPaths subs

/-- `crawl_journal` from `crawler_app/crawl.py`; `load_record` abstracts
`load_metadata_for_dir` (a pure read of the disk). The last component is the
trace of network requests made for this journal. -/
def crawl_journal (senv : ScreenEnv) (denv : DlEnv) (load_record : Path → MetaRecord)
    (store : UrlCacheStore) (journal : JournalConfig) (n_per_journal : Nat)
    (start_year end_year : Int) (max_pages : Nat) (base_dir : String) (dry_run : Bool)
    (fs0 : List Path) :
    List MetaRecord × List Path × UrlCacheStore × List String :=
  let fs := makedirs fs0 [base_dir]
  let category_dir : Path := [base_dir, journal.category]
  let fs := makedirs fs category_dir
  let existing_dirs := list_existing_article_dirs fs category_dir
  let existing_records := existing_dirs.map load_record
  let existing_slugs := existing_dirs.map (fun p => p.getLast?.getD "")
  let collected := existing_records.take n_per_journal
  if n_per_journal ≤ collected.length then (collected, fs, store, [])
  else
    let remaining := n_per_journal - collected.length
    let url_cache := load_url_cache store base_dir journal.slug
    let s := screen_journal senv journal remaining start_year end_year max_pages
      existing_slugs url_cache
    let store' := save_url_cache store base_dir journal.slug s.2.1
    let d := download_candidates denv journal s.1 remaining base_dir dry_run ⟨fs, [], []⟩
    (collected ++ d.1, d.2.fs, store', s.2.2 ++ d.2.requests)

/-! ## `crawler_app/http_client.py`: `RobotsCache` -/

/-- A fetched-and-parsed robots policy: `user_agent → url → can_fetch`. -/
abbrev RobotsParser := String → String → Bool

structure RobotsCacheState where
  cache : List (String × RobotsParser)

/-- `f"{parsed.scheme}://{parsed.netloc}"`. -/
def origin_of (url : String) : String :=
  let p := urlparseL url.toList
  (p.scheme ++ "://".toList ++ p.netloc).asString

/-- `RobotsCache.allowed`: `fetchRobots` models `RobotFileParser.read()` for
an origin's policy document (`none` = the read raised). The trace lists the
policy-document fetch attempts this call makes. -/
def robots_allowed (fetchRobots : String → Option RobotsParser) (user_agent : String)
    (st : RobotsCacheState) (url : String) : Bool × RobotsCacheState × List String :=
  let base := origin_of url
  match st.cache.lookup base with
  | some rp => (rp user_agent url, st, [])
  | none =>
    match fetchRobots base with
    | none => (false, st, [base])
    | some rp => (rp user_agent url, ⟨(base, rp) :: st.cache⟩, [base])

/-! ## `crawler_app/http_client.py`: the streaming GET of `_request` -/

inductive UrlOpenOutcome where
  /-- `urlopen` raised `HTTPError`/`URLError`. -/
  | transportError
  /-- A response arrived with this `Content-Type`; `streamFails` says whether
  reading the body raises midway (after the destination file was opened). -/
  | response (contentType : String) (streamFails : Bool)

inductive DlError where
  /-- `ValueError` for an unexpected Content-Type (spec: `FetchError(unexpected_content_type)`). -/
  | contentTypeMismatch
  /-- The final attempt's `HTTPError`/`URLError`, re-raised. -/
  | transport
  /-- The `RuntimeError` fallthrough (empty retry range). -/
  | runtime
  deriving DecidableEq, Repr

/-- `os.path.splitext(dest_path)[1].lower()`. -/
def dest_ext (dest_path : String) : String :=
  (lowerL (splitextL dest_path.toList).2).asString

/-- The retry loop of `ThrottledFetcher._request` in streaming mode
(`crawler_app/http_client.py` lines 79-145): per attempt, a transport error
retries (re-raising on the last attempt); a response is content-type-checked
*before* the destination file is opened; only then is the file created. The
filesystem here is the set of existing file path strings. -/
def request_stream (outcome : Nat → UrlOpenOutcome) (dest_path : String)
    (fs : List String) : List Nat → Except DlError Unit × List String
  | [] => (Except.error DlError.runtime, fs)
  | attempt :: rest =>
    match outcome attempt with
    | .transportError =>
      if rest = [] then (Except.error DlError.transport, fs)
      else request_stream outcome dest_path fs rest
    | .response content_type streamFails =>
      if is_html_content content_type ∧ dest_ext dest_path ∉ [".html", ".htm"] then
        (Except.error DlError.contentTypeMismatch, fs)
      else
        let fs' := dest_path :: fs
        if streamFails then
          if rest = [] then (Except.error DlError.transport, fs')
          else request_stream outcome dest_path fs' rest
        else (Except.ok (), fs')

/-- `download_file`'s use of `_request(url, stream=True, dest_path=...)`
with `retries` attempts. -/
def throttled_download (outcome : Nat → UrlOpenOutcome) (retries : Nat)
    (dest_path : String) (fs : List String) : Except DlError Unit × List String :=
  request_stream outcome dest_path fs (List.range retries)

/-! ## Concrete fixtures used by witness theorems -/

def journalW : JournalConfig :=
  ⟨"Nature Human Behaviour", "nathumbehav", "social_sci",
    fun p => "https://www.nature.com/nathumbehav/research-articles?page=" ++ Nat.repr p⟩

def peerResourceW : ESMResource :=
  ⟨"https://static-content.springer.com/esm/pr.pdf", "Peer Review File",
    "Peer_Review_File.pdf", "peer_review"⟩

def articleW : ArticleData :=
  ⟨"Nature Human Behaviour", "social_sci", "https://www.nature.com/articles/a1", "T",
    "2024-01-01", none, ["https://github.com/o/r"],
    some "https://www.nature.com/articles/a1.pdf", [peerResourceW]⟩

def candW : ScreeningResult :=
  ⟨articleW, some "https://codeload.github.com/o/r/zip/HEAD", "https://github.com/o/r",
    peerResourceW, "downloadable", "downloadable", "downloadable"⟩

/-- A screening environment whose page 1 lists one article published 2022. -/
def envStopW : ScreenEnv :=
  ⟨fun _ => true,
    fun u => if u = journalW.list_url 1 then some "H" else none,
    fun _ _ => [("https://www.nature.com/articles/old-2022", 2022)],
    fun _ _ _ => articleW,
    fun _ => (some 200, "application/pdf", none)⟩

def denvW : DlEnv := ⟨fun _ => true, fun _ => true⟩

def recordW : MetaRecord :=
  { journal := "Nature Human Behaviour"
    category := "social_sci"
    title := "T"
    url := "https://www.nature.com/articles/a1"
    published_date := "2024-01-01"
    doi := ""
    github_repos := ["https://github.com/o/r"]
    used_github_repo := "https://github.com/o/r"
    pdf_url := "https://www.nature.com/articles/a1.pdf"
    status_pdf := "downloaded"
    status_peer_review := "downloaded"
    status_code := "downloaded"
    manual_required := []
    output :=
      { article_dir := "output/social_sci/a1"
        pdf := "pdf_papers/paper.pdf"
        code_zip := "code/r.zip"
        supplementary_files := ["supplementary_materials/Peer_Review_File.pdf"]
        data_files := []
        peer_review_file := "supplementary_materials/Peer_Review_File.pdf" } }

/-! ## Lemmas relating `find_working_zip_url` to its claim-level description -/

theorem tryZipUrls_fst (allowed : String → Bool) (head : HeadFn)
    (urls : List String) (saw : Bool) :
    (tryZipUrls allowed head urls saw).1 =
      urls.find? (fun u => (screen_resource allowed head u).1 = "downloadable") := by
  induction urls generalizing saw with
  | nil => simp [tryZipUrls]
  | cons u rest ih =>
    by_cases h : (screen_resource allowed head u).1 = "downloadable" <;>
      simp [tryZipUrls, List.find?, h, ih]

theorem tryZipUrls_saw (allowed : String → Bool) (head : HeadFn)
    (urls : List String) (saw : Bool)
    (hnone : (tryZipUrls allowed head urls saw).1 = none) :
    (tryZipUrls allowed head urls saw).2.1 =
      (saw || urls.any (fun u => (screen_resource allowed head u).1 = "manual_required")) := by
  induction urls generalizing saw with
  | nil => simp [tryZipUrls]
  | cons u rest ih =>
    by_cases h : (screen_resource allowed head u).1 = "downloadable"
    · simp [tryZipUrls, h] at hnone
    · simp only [tryZipUrls, h, if_false, if_neg h] at hnone ⊢
      rw [ih _ hnone]
      simp [Bool.or_assoc]

theorem fwzu_go_eq_claim (allowed : String → Bool) (head : HeadFn)
    (orig : List String) (repos : List String) :
    (fwzu_go allowed head repos false).1.getD (none, orig.head?, "manual_required") =
      fwzu_claim allowed head orig repos := by
  induction repos with
  | nil => simp [fwzu_go, fwzu_claim]
  | cons r rs ih =>
    simp only [fwzu_go, fwzu_claim]
    rw [show (tryZipUrls allowed head (github_zip_urls r) false).1 =
        (github_zip_urls r).find?
          (fun u => (screen_resource allowed head u).1 = "downloadable") from
      tryZipUrls_fst allowed head _ false]
    cases hfind : (github_zip_urls r).find?
        (fun u => (screen_resource allowed head u).1 = "downloadable") with
    | some u => simp [hfind, ← tryZipUrls_fst allowed head _ false]
    | none =>
      have hn : (tryZipUrls allowed head (github_zip_urls r) false).1 = none := by
        rw [tryZipUrls_fst]; exact hfind
      have hs := tryZipUrls_saw allowed head (github_zip_urls r) false hn
      simp only [Bool.false_or] at hs
      simp only [hs]
      by_cases hm : ((github_zip_urls r).any
          (fun u => (screen_resource allowed head u).1 = "manual_required")) = true
      · simp [hm]
      · simp only [Bool.not_eq_true] at hm
        simp only [hm, Bool.false_eq_true, if_false]
        exact ih

theorem find_working_zip_url_fst (allowed : String → Bool) (head : HeadFn)
    (repos : List String) :
    (find_working_zip_url allowed head repos).1 =
      find_working_zip_url_claim allowed head repos := by
  unfold find_working_zip_url find_working_zip_url_claim
  have h := fwzu_go_eq_claim allowed head repos repos
  cases hg : (fwzu_go allowed head repos false) with
  | mk res rest =>
    cases res with
    | none => rw [hg] at h; simpa using h
    | some r => rw [hg] at h; simpa using h

/-! ## Claim theorems -/

/-- Claim C8: for every URL that the permission policy disallows,
`screen_resource` returns `manual_required` (reason `robots_disallowed`)
regardless of what a HEAD probe would return; any two fetcher states yield
the identical result because the policy check precedes and short-circuits
the probe. -/
theorem screen_resource_policy_short_circuit
    (allowed : String → Bool) (url : String) (h : allowed url = false) :
    (∀ head : HeadFn,
      screen_resource allowed head url = ("manual_required", "robots_disallowed")) ∧
    ∀ head1 head2 : HeadFn,
      screen_resource allowed head1 url = screen_resource allowed head2 url := by
  refine ⟨fun head => ?_, fun h1 h2 => ?_⟩ <;> simp [screen_resource, h]

theorem screen_resource_policy_short_circuit_witness :
    ((fun _ : String => false) "https://x.example/p.pdf" = false) ∧
    (∀ head : HeadFn, screen_resource (fun _ => false) head "https://x.example/p.pdf" =
      ("manual_required", "robots_disallowed")) ∧
    ∀ head1 head2 : HeadFn,
      screen_resource (fun _ => false) head1 "https://x.example/p.pdf" =
        screen_resource (fun _ => false) head2 "https://x.example/p.pdf" := by
  have h := screen_resource_policy_short_circuit (fun _ => false) "https://x.example/p.pdf" rfl
  exact ⟨rfl, h.1, h.2⟩

/-- Claim C3: `find_working_zip_url` returns, per repo in order, the first
zip URL (`/zip/HEAD`, `/zip/refs/heads/main`, `/zip/refs/heads/master`) that
probes downloadable; absent one, a repo that probed manual-required is
returned as `(none, repo, manual_required)` after its own three URLs with no
later repo probed; exhausting all repos falls back to the first repo (or
`none` for an empty list). In particular for `[A, B]` with A's three URLs
manual-required (robots-disallowed) and B's `/zip/HEAD` downloadable, the
result is `(none, A, manual_required)` with an empty probe trace. -/
theorem find_working_zip_url_resolution_order :
    (∀ (allowed : String → Bool) (head : HeadFn) (repos : List String),
      (find_working_zip_url allowed head repos).1 =
        find_working_zip_url_claim allowed head repos) ∧
    (∀ (allowed : String → Bool) (head : HeadFn),
      find_working_zip_url allowed head [] = ((none, none, "manual_required"), [])) ∧
    ∀ (allowed : String → Bool) (head : HeadFn),
      (∀ u ∈ github_zip_urls "https://github.com/aa/aa", allowed u = false) →
      (screen_resource allowed head "https://codeload.github.com/bb/bb/zip/HEAD").1 =
        "downloadable" →
      find_working_zip_url allowed head
          ["https://github.com/aa/aa", "https://github.com/bb/bb"] =
        ((none, some "https://github.com/aa/aa", "manual_required"), []) := by
  refine ⟨find_working_zip_url_fst, ?_, ?_⟩
  · intro allowed head
    simp [find_working_zip_url, fwzu_go]
  · intro allowed head hA _
    have hzip : github_zip_urls "https://github.com/aa/aa" =
        [ "https://codeload.github.com/aa/aa/zip/HEAD",
          "https://codeload.github.com/aa/aa/zip/refs/heads/main",
          "https://codeload.github.com/aa/aa/zip/refs/heads/master" ] := by decide
    have h1 := hA "https://codeload.github.com/aa/aa/zip/HEAD" (by rw [hzip]; simp)
    have h2 := hA "https://codeload.github.com/aa/aa/zip/refs/heads/main" (by rw [hzip]; simp)
    have h3 := hA "https://codeload.github.com/aa/aa/zip/refs/heads/master" (by rw [hzip]; simp)
    have hs1 : screen_resource allowed head "https://codeload.github.com/aa/aa/zip/HEAD" =
        ("manual_required", "robots_disallowed") := by simp [screen_resource, h1]
    have hs2 : screen_resource allowed head
        "https://codeload.github.com/aa/aa/zip/refs/heads/main" =
        ("manual_required", "robots_disallowed") := by simp [screen_resource, h2]
    have hs3 : screen_resource allowed head
        "https://codeload.github.com/aa/aa/zip/refs/heads/master" =
        ("manual_required", "robots_disallowed") := by simp [screen_resource, h3]
    have htry : tryZipUrls allowed head
        [ "https://codeload.github.com/aa/aa/zip/HEAD",
          "https://codeload.github.com/aa/aa/zip/refs/heads/main",
          "https://codeload.github.com/aa/aa/zip/refs/heads/master" ] false =
        (none, true, []) := by
      simp [tryZipUrls, hs1, hs2, hs3, screen_resource_probes, h1, h2, h3]
    have hgo : fwzu_go allowed head
        ["https://github.com/aa/aa", "https://github.com/bb/bb"] false =
        (some (none, some "https://github.com/aa/aa", "manual_required"), true, []) := by
      simp only [fwzu_go, hzip, htry]
      simp
    simp [find_working_zip_url, hgo]

theorem find_working_zip_url_resolution_order_witness :
    ((find_working_zip_url (fun u => !(github_zip_urls "https://github.com/aa/aa").contains u)
        (fun _ => (some 200, "application/zip", none))
        ["https://github.com/aa/aa", "https://github.com/bb/bb"]) =
      ((none, some "https://github.com/aa/aa", "manual_required"), [])) := by
  have h := find_working_zip_url_resolution_order.2.2
    (fun u => !(github_zip_urls "https://github.com/aa/aa").contains u)
    (fun _ => (some 200, "application/zip", none))
    (by decide) (by decide)
  exact h

/-- Claim C5: during screening, a listing entry older than `start_year`
stops the journal's screening entirely — the entry loop returns the
unchanged state with the stop flag and an empty request trace (the entry is
not evaluated further), and the page loop ends at that page — whereas an
entry newer than `end_year` is skipped individually: processing the page is
the same as processing the remaining entries. -/
theorem screening_year_boundaries :
    (∀ (env : ScreenEnv) (journal : JournalConfig) (remaining : Nat)
      (start_year end_year : Int) (existing : List String) (url : String) (year : Int)
      (rest : List (String × Int)) (st : ScreenState), year < start_year →
      screenEntries env journal remaining start_year end_year existing
        ((url, year) :: rest) st = (st, true, [])) ∧
    (∀ (env : ScreenEnv) (journal : JournalConfig) (remaining : Nat)
      (start_year end_year : Int) (existing : List String) (url : String) (year : Int)
      (rest : List (String × Int)) (st : ScreenState),
      ¬ year < start_year → end_year < year →
      screenEntries env journal remaining start_year end_year existing
        ((url, year) :: rest) st =
      screenEntries env journal remaining start_year end_year existing rest st) ∧
    (∀ (env : ScreenEnv) (journal : JournalConfig) (remaining : Nat)
      (start_year end_year : Int) (existing : List String) (fuel page : Nat)
      (st : ScreenState) (html : String),
      ¬ remaining ≤ st.candidates.length →
      env.allowed (journal.list_url page) = true →
      env.fetch_text (journal.list_url page) = some html →
      env.parse_listing html "https://www.nature.com" ≠ [] →
      (screenEntries env journal remaining start_year end_year existing
        (env.parse_listing html "https://www.nature.com") st).2.1 = true →
      screenPages env journal remaining start_year end_year existing (fuel + 1) page st =
        ((screenEntries env journal remaining start_year end_year existing
            (env.parse_listing html "https://www.nature.com") st).1,
          journal.list_url page ::
            (screenEntries env journal remaining start_year end_year existing
              (env.parse_listing html "https://www.nature.com") st).2.2)) := by
  refine ⟨?_, ?_, ?_⟩
  · intro env journal remaining sy ey ex url year rest st h
    simp [screenEntries, h]
  · intro env journal remaining sy ey ex url year rest st h1 h2
    simp [screenEntries, h1, h2]
  · intro env journal remaining sy ey ex fuel page st html hrem hallow hfetch hne hstop
    simp [screenPages, hrem, hallow, hfetch, hne, hstop]

theorem screening_year_boundaries_witness :
    ((2022 : Int) < 2023 ∧
      screenEntries envStopW journalW 5 2023 2026 []
        [("https://www.nature.com/articles/old-2022", 2022)] ⟨[], []⟩ =
        (⟨[], []⟩, true, [])) ∧
    (¬ (2027 : Int) < 2023 ∧ (2026 : Int) < 2027 ∧
      screenEntries envStopW journalW 5 2023 2026 []
        [("https://www.nature.com/articles/future-2027", 2027),
          ("https://www.nature.com/articles/a1", 2024)] ⟨[], []⟩ =
      screenEntries envStopW journalW 5 2023 2026 []
        [("https://www.nature.com/articles/a1", 2024)] ⟨[], []⟩) ∧
    screenPages envStopW journalW 5 2023 2026 [] 400 1 ⟨[], []⟩ =
      (⟨[], []⟩, [journalW.list_url 1]) := by
  have h1 := screening_year_boundaries.1 envStopW journalW 5 2023 2026 []
    "https://www.nature.com/articles/old-2022" 2022 [] ⟨[], []⟩ (by decide)
  have h2 := screening_year_boundaries.2.1 envStopW journalW 5 2023 2026 []
    "https://www.nature.com/articles/future-2027" 2027
    [("https://www.nature.com/articles/a1", 2024)] ⟨[], []⟩ (by decide) (by decide)
  have hentries : envStopW.parse_listing "H" "https://www.nature.com" =
      [("https://www.nature.com/articles/old-2022", 2022)] := rfl
  have h3 := screening_year_boundaries.2.2 envStopW journalW 5 2023 2026 [] 399 1
    ⟨[], []⟩ "H" (by decide) rfl (by decide) (by rw [hentries]; decide)
    (by rw [hentries, h1])
  rw [hentries, h1] at h3
  exact ⟨⟨by decide, h1⟩, ⟨by decide, by decide, h2⟩, h3⟩

/-- Claim C2: `crawl_journal` loads the per-journal negative-URL cache
before screening and saves screening's final cache after it; and during
screening an article URL with a recorded (nonempty) reason is skipped — the
page's processing equals that of the remaining entries, so the URL is
neither fetched nor probed and the state is unchanged. -/
theorem negative_url_cache_roundtrip_and_skip :
    (∀ (senv : ScreenEnv) (denv : DlEnv) (load_record : Path → MetaRecord)
      (store : UrlCacheStore) (journal : JournalConfig) (n : Nat) (sy ey : Int)
      (mp : Nat) (bd : String) (dr : Bool) (fs0 : List Path),
      ¬ n ≤ (List.take n ((list_existing_article_dirs (makedirs (makedirs fs0 [bd])
          [bd, journal.category]) [bd, journal.category]).map load_record)).length →
      (crawl_journal senv denv load_record store journal n sy ey mp bd dr fs0).2.2.1 =
        save_url_cache store bd journal.slug
          (screen_journal senv journal
            (n - (List.take n ((list_existing_article_dirs (makedirs (makedirs fs0 [bd])
              [bd, journal.category]) [bd, journal.category]).map load_record)).length)
            sy ey mp
            ((list_existing_article_dirs (makedirs (makedirs fs0 [bd])
              [bd, journal.category]) [bd, journal.category]).map
                (fun p => p.getLast?.getD ""))
            (load_url_cache store bd journal.slug)).2.1) ∧
    (∀ (env : ScreenEnv) (journal : JournalConfig) (remaining : Nat)
      (sy ey : Int) (existing : List String) (url : String) (year : Int)
      (reason : String) (rest : List (String × Int)) (st : ScreenState),
      ¬ year < sy → ¬ ey < year → ¬ remaining ≤ st.candidates.length →
      st.url_cache.lookup url = some reason → reason ≠ "" →
      screenEntries env journal remaining sy ey existing ((url, year) :: rest) st =
        screenEntries env journal remaining sy ey existing rest st) := by
  constructor
  · intro senv denv load_record store journal n sy ey mp bd dr fs0 h
    have h' : ¬ n ≤ (list_existing_article_dirs (makedirs (makedirs fs0 [bd])
        [bd, journal.category]) [bd, journal.category]).length := by
      simp only [List.length_take, List.length_map] at h
      omega
    simp [crawl_journal, h', List.length_take, List.length_map]
  · intro env journal remaining sy ey ex url year reason rest st hys hye hrem hcache hr
    simp [screenEntries, hys, hye, hrem, cachedReasonTruthy, hcache, hr]

theorem negative_url_cache_roundtrip_and_skip_witness :
    ((¬ (1 : Nat) ≤ (List.take 1 ((list_existing_article_dirs (makedirs (makedirs []
        ["output"]) ["output", journalW.category]) ["output", journalW.category]).map
        (fun _ => recordW))).length) ∧
      (crawl_journal envStopW denvW (fun _ => recordW) [] journalW 1 2023 2026 400
          "output" false []).2.2.1 =
        save_url_cache [] "output" journalW.slug
          (screen_journal envStopW journalW
            (1 - (List.take 1 ((list_existing_article_dirs (makedirs (makedirs []
              ["output"]) ["output", journalW.category]) ["output", journalW.category]).map
              (fun _ => recordW))).length)
            2023 2026 400
            ((list_existing_article_dirs (makedirs (makedirs [] ["output"])
              ["output", journalW.category]) ["output", journalW.category]).map
                (fun p => p.getLast?.getD ""))
            (load_url_cache [] "output" journalW.slug)).2.1) ∧
    screenEntries envStopW journalW 5 2023 2026 []
        [("https://www.nature.com/articles/cached", 2024)]
        ⟨[], [("https://www.nature.com/articles/cached", "missing_pdf_link")]⟩ =
      screenEntries envStopW journalW 5 2023 2026 [] []
        ⟨[], [("https://www.nature.com/articles/cached", "missing_pdf_link")]⟩ := by
  refine ⟨⟨by decide, ?_⟩, ?_⟩
  · exact negative_url_cache_roundtrip_and_skip.1 envStopW denvW (fun _ => recordW) []
      journalW 1 2023 2026 400 "output" false [] (by decide)
  · exact negative_url_cache_roundtrip_and_skip.2 envStopW journalW 5 2023 2026 []
      "https://www.nature.com/articles/cached" 2024 "missing_pdf_link" []
      ⟨[], [("https://www.nature.com/articles/cached", "missing_pdf_link")]⟩
      (by decide) (by decide) (by decide) (by decide) (by decide)

/-- Claim C9: when the output directory already holds at least `n` complete
article directories (subdirectories with a `metadata.json`) in the journal's
category, `crawl_journal` returns the `n` existing records loaded from disk
with an empty request trace — no listing page, article page, probe or
download is fetched — and leaves the cache store untouched. -/
theorem crawl_existing_quota_zero_requests
    (senv : ScreenEnv) (denv : DlEnv) (load_record : Path → MetaRecord)
    (store : UrlCacheStore) (journal : JournalConfig) (n : Nat) (sy ey : Int)
    (mp : Nat) (bd : String) (dr : Bool) (fs0 : List Path)
    (h : n ≤ (list_existing_article_dirs (makedirs (makedirs fs0 [bd])
      [bd, journal.category]) [bd, journal.category]).length) :
    crawl_journal senv denv load_record store journal n sy ey mp bd dr fs0 =
      (((list_existing_article_dirs (makedirs (makedirs fs0 [bd])
          [bd, journal.category]) [bd, journal.category]).map load_record).take n,
        makedirs (makedirs fs0 [bd]) [bd, journal.category], store, []) ∧
    (crawl_journal senv denv load_record store journal n sy ey mp bd dr fs0).1.length
      = n := by
  have hlen : (List.take n ((list_existing_article_dirs (makedirs (makedirs fs0 [bd])
      [bd, journal.category]) [bd, journal.category]).map load_record)).length = n := by
    simp only [List.length_take, List.length_map]
    omega
  have hcond : n ≤ (List.take n ((list_existing_article_dirs (makedirs (makedirs fs0 [bd])
      [bd, journal.category]) [bd, journal.category]).map load_record)).length := by
    omega
  refine ⟨?_, ?_⟩
  · simp only [crawl_journal]
    rw [if_pos hcond]
  · simp only [crawl_journal]
    rw [if_pos hcond]
    exact hlen

theorem crawl_existing_quota_zero_requests_witness :
    ((1 : Nat) ≤ (list_existing_article_dirs
      (makedirs (makedirs [["output", "social_sci", "a1"],
        ["output", "social_sci", "a1", "metadata.json"]] ["output"])
        ["output", journalW.category]) ["output", journalW.category]).length) ∧
    crawl_journal envStopW denvW (fun _ => recordW) [] journalW 1 2023 2026 400
        "output" false
        [["output", "social_sci", "a1"], ["output", "social_sci", "a1", "metadata.json"]]
      = ([recordW],
        makedirs (makedirs [["output", "social_sci", "a1"],
          ["output", "social_sci", "a1", "metadata.json"]] ["output"])
          ["output", journalW.category], [], []) := by
  have h := crawl_existing_quota_zero_requests envStopW denvW (fun _ => recordW) []
    journalW 1 2023 2026 400 "output" false
    [["output", "social_sci", "a1"], ["output", "social_sci", "a1", "metadata.json"]]
    (by decide)
  refine ⟨by decide, ?_⟩
  rw [h.1]
  rfl

/-- Claim C1 (code bug): the `crawler_app/storage.py` copy of
`write_summary_csv` performs no on-disk existence check, so a record none of
whose three artifacts exist on disk (here: a filesystem where no path
exists) still produces a row; the `crawler.py` copy of the same function
skips that record, as the claim demands. -/
theorem write_summary_csv_missing_artifact_row :
    write_summary_csv_app [recordW] = [summary_row recordW] ∧
    write_summary_csv_legacy (fun _ => false) [recordW] = [] := by
  constructor <;> decide

theorem request_stream_html_mismatch (outcome : Nat → UrlOpenOutcome)
    (dest_path : String) (fs : List String) (attempts : List Nat)
    (hhtml : ∀ i ct sf, outcome i = .response ct sf → is_html_content ct = true)
    (hext : dest_ext dest_path ∉ [".html", ".htm"])
    (hresp : ∃ i ∈ attempts, ∃ ct sf, outcome i = .response ct sf) :
    request_stream outcome dest_path fs attempts =
      (Except.error DlError.contentTypeMismatch, fs) := by
  induction attempts with
  | nil => obtain ⟨i, hi, -⟩ := hresp; simp at hi
  | cons a rest ih =>
    cases houtcome : outcome a with
    | response ct sf =>
      have hct := hhtml a ct sf houtcome
      simp [request_stream, houtcome, hct, hext]
    | transportError =>
      obtain ⟨i, hi, ct, sf, hout⟩ := hresp
      rcases List.mem_cons.mp hi with rfl | hi'
      · rw [hout] at houtcome; cases houtcome
      · have hrest : rest ≠ [] := by rintro rfl; simp at hi'
        simp only [request_stream, houtcome, hrest, if_false, if_neg hrest]
        exact ih ⟨i, hi', ct, sf, hout⟩

/-- Claim C6: any file download whose HTTP response Content-Type contains
`text/html` while the destination extension is neither `.html` nor `.htm`
raises the content-type `FetchError` (a `ValueError` in the source, mapped
to `FetchError(unexpected_content_type)` by the spec's taxonomy) and leaves
the filesystem unchanged, so no file — in particular no partial file — is
present at the destination afterwards when none was before. -/
theorem download_html_mismatch_no_partial_file (outcome : Nat → UrlOpenOutcome)
    (retries : Nat) (dest_path : String) (fs : List String)
    (hhtml : ∀ i ct sf, outcome i = .response ct sf → is_html_content ct = true)
    (hext : dest_ext dest_path ∉ [".html", ".htm"])
    (hresp : ∃ i ∈ List.range retries, ∃ ct sf, outcome i = .response ct sf) :
    throttled_download outcome retries dest_path fs =
      (Except.error DlError.contentTypeMismatch, fs) ∧
    (dest_path ∉ fs →
      dest_path ∉ (throttled_download outcome retries dest_path fs).2) := by
  have h := request_stream_html_mismatch outcome dest_path fs (List.range retries)
    hhtml hext hresp
  refine ⟨h, fun hmem => ?_⟩
  rw [throttled_download, h]
  exact hmem

theorem download_html_mismatch_no_partial_file_witness :
    ((∀ i ct sf, (fun _ : Nat => UrlOpenOutcome.response "text/html; charset=utf-8" false) i
        = .response ct sf → is_html_content ct = true) ∧
      dest_ext "out/code/r.zip" ∉ [".html", ".htm"] ∧
      (∃ i ∈ List.range 3, ∃ ct sf,
        (fun _ : Nat => UrlOpenOutcome.response "text/html; charset=utf-8" false) i =
          .response ct sf)) ∧
    throttled_download (fun _ => .response "text/html; charset=utf-8" false) 3
        "out/code/r.zip" [] =
      (Except.error DlError.contentTypeMismatch, []) ∧
    "out/code/r.zip" ∉
      (throttled_download (fun _ => .response "text/html; charset=utf-8" false) 3
        "out/code/r.zip" []).2 := by
  have hhtml : ∀ i ct sf,
      (fun _ : Nat => UrlOpenOutcome.response "text/html; charset=utf-8" false) i =
        .response ct sf → is_html_content ct = true := by
    intro i ct sf h
    cases h
    decide
  have hresp : ∃ i ∈ List.range 3, ∃ ct sf,
      (fun _ : Nat => UrlOpenOutcome.response "text/html; charset=utf-8" false) i =
        .response ct sf :=
    ⟨0, by decide, "text/html; charset=utf-8", false, rfl⟩
  have h := download_html_mismatch_no_partial_file
    (fun _ => .response "text/html; charset=utf-8" false) 3 "out/code/r.zip" []
    hhtml (by decide) hresp
  exact ⟨⟨hhtml, by decide, hresp⟩, h.1, h.2 (by simp)⟩

/-- Claim C10 counterexample: an origin whose robots.txt read always fails
is re-fetched on every query — here two successive `allowed` calls for the
same origin each attempt the policy-document fetch, so the origin is fetched
twice in one process, not at most once. -/
theorem robots_cache_refetches_after_failure :
    (robots_allowed (fun _ => none) "ua" ⟨[]⟩ "https://x.example/a").2.2 =
      ["https://x.example"] ∧
    (robots_allowed (fun _ => none) "ua"
        (robots_allowed (fun _ => none) "ua" ⟨[]⟩ "https://x.example/a").2.1
        "https://x.example/a").2.2 = ["https://x.example"] := by
  constructor <;> rfl

/-- Claim C10 (amended): on a fetch/parse failure `allowed` fails closed
(returns false) and caches nothing, so the next query for that origin
re-attempts the fetch; a cached origin is answered from the cache with no
fetch and no expiry; a successful first fetch is cached, after which any
query for the same origin fetches nothing. Thus "at most one policy fetch
per origin per process" holds for origins whose fetch succeeds, not for
origins whose fetch keeps failing. -/
theorem robots_cache_fail_closed_and_cache_on_success
    (fetchRobots : String → Option RobotsParser) (ua : String)
    (st : RobotsCacheState) (url : String) :
    (st.cache.lookup (origin_of url) = none → fetchRobots (origin_of url) = none →
      robots_allowed fetchRobots ua st url = (false, st, [origin_of url])) ∧
    (∀ rp, st.cache.lookup (origin_of url) = some rp →
      robots_allowed fetchRobots ua st url = (rp ua url, st, [])) ∧
    (∀ rp, st.cache.lookup (origin_of url) = none →
      fetchRobots (origin_of url) = some rp →
      robots_allowed fetchRobots ua st url =
        (rp ua url, ⟨(origin_of url, rp) :: st.cache⟩, [origin_of url]) ∧
      ∀ url2, origin_of url2 = origin_of url →
        (robots_allowed fetchRobots ua ⟨(origin_of url, rp) :: st.cache⟩ url2).2.2 = []) := by
  refine ⟨fun h1 h2 => ?_, fun rp h1 => ?_, fun rp h1 h2 => ⟨?_, fun url2 h3 => ?_⟩⟩
  · simp [robots_allowed, h1, h2]
  · simp [robots_allowed, h1]
  · simp [robots_allowed, h1, h2]
  · simp [robots_allowed, h3]

theorem robots_cache_fail_closed_and_cache_on_success_witness :
    (robots_allowed (fun _ => none) "ua" ⟨[]⟩ "https://bad.example/x" =
      (false, ⟨[]⟩, ["https://bad.example"]) ∧
    (robots_allowed (fun o => if o = "https://ok.example" then some (fun _ _ => true)
        else none) "ua" ⟨[]⟩ "https://ok.example/page").2.2 = ["https://ok.example"] ∧
    (robots_allowed (fun o => if o = "https://ok.example" then some (fun _ _ => true)
        else none) "ua"
      (robots_allowed (fun o => if o = "https://ok.example" then some (fun _ _ => true)
        else none) "ua" ⟨[]⟩ "https://ok.example/page").2.1
      "https://ok.example/other").2.2 = []) := by
  have h1 := (robots_cache_fail_closed_and_cache_on_success (fun _ => none) "ua" ⟨[]⟩
    "https://bad.example/x").1 rfl rfl
  have h3 := (robots_cache_fail_closed_and_cache_on_success
    (fun o => if o = "https://ok.example" then some (fun _ _ => true) else none) "ua" ⟨[]⟩
    "https://ok.example/page").2.2 (fun _ _ => true) rfl rfl
  have h4 := h3.2 "https://ok.example/other" (by decide)
  refine ⟨?_, ?_, ?_⟩
  · simpa using h1
  · rw [h3.1]; rfl
  · rw [show (robots_allowed (fun o => if o = "https://ok.example" then
        some (fun _ _ => true) else none) "ua" ⟨[]⟩ "https://ok.example/page").2.1 =
      (⟨[("https://ok.example", fun _ _ => true)]⟩ : RobotsCacheState) from
        congrArg (fun t => t.2.1) h3.1]
    exact h4

/-! ## Lemmas for the rollback frame property (C7) -/

theorem mem_makedirs {p : Path} {fs : List Path} (q : Path) (hp : p ∈ fs) :
    p ∈ makedirs fs q :=
  List.mem_append.mpr (Or.inr hp)

theorem mem_ensure_article_dirs {p : Path} {fs : List Path} (dir : Path) (hp : p ∈ fs) :
    p ∈ ensure_article_dirs fs dir :=
  mem_makedirs _ (mem_makedirs _ (mem_makedirs _ (mem_makedirs _ (mem_makedirs _ hp))))

theorem download_file_deletions (env : DlEnv) (st : DlState) (url : String) (dest : Path) :
    (download_file env st url dest).2.deletions = st.deletions := by
  simp only [download_file]
  split <;> rfl

theorem mem_download_file_fs {p : Path} (env : DlEnv) (st : DlState) (url : String)
    (dest : Path) (hp : p ∈ st.fs) : p ∈ (download_file env st url dest).2.fs := by
  simp only [download_file]
  split
  · exact List.mem_cons_of_mem _ (mem_makedirs _ hp)
  · exact mem_makedirs _ hp

theorem mem_cleanup_article_dir {p : Path} {fs : List Path} (d : Path) (hp : p ∈ fs)
    (hnp : d.isPrefixOf p = false) : p ∈ cleanup_article_dir fs d := by
  refine List.mem_filter.mpr ⟨hp, ?_⟩
  simp [hnp]

theorem rollback_deletions (st : DlState) (d : Path) :
    (rollback st d).deletions = st.deletions ++ [d] := rfl

theorem mem_rollback_fs {p : Path} (st : DlState) (d : Path) (hp : p ∈ st.fs)
    (hnp : d.isPrefixOf p = false) : p ∈ (rollback st d).fs :=
  mem_cleanup_article_dir d hp hnp

theorem esmRecordPath_st (r : ESMResource) (dest : Path) (acc : EsmAcc) :
    (esmRecordPath r dest acc).st = acc.st := by
  simp only [esmRecordPath]
  split
  · rfl
  · split <;> rfl

theorem esmLoop_deletions (env : DlEnv) (dir : Path) (rs : String) :
    ∀ (l : List ESMResource) (acc : EsmAcc),
      (esmLoop env dir rs l acc).st.deletions = acc.st.deletions := by
  intro l
  induction l with
  | nil => intro acc; rfl
  | cons r rest ih =>
    intro acc
    simp only [esmLoop]
    repeat' split
    all_goals simp [ih, esmRecordPath_st, download_file_deletions]

theorem mem_esmLoop_fs {p : Path} (env : DlEnv) (dir : Path) (rs : String) :
    ∀ (l : List ESMResource) (acc : EsmAcc),
      p ∈ acc.st.fs → p ∈ (esmLoop env dir rs l acc).st.fs := by
  intro l
  induction l with
  | nil => intro acc hp; exact hp
  | cons r rest ih =>
    intro acc hp
    simp only [esmLoop]
    repeat' split
    all_goals first
      | exact ih _ hp
      | (apply ih; rw [esmRecordPath_st]; exact hp)
      | (apply ih; rw [esmRecordPath_st]; exact mem_download_file_fs _ _ _ _ hp)
      | (apply ih; exact mem_download_file_fs _ _ _ _ hp)

theorem pdfStageFn_frame (env : DlEnv) (st : DlState) (result : ScreeningResult)
    (article_dir pdf_path : Path) (ex : Bool) (fs₀ : List Path)
    (hsub : ∀ p ∈ fs₀, p ∈ st.fs)
    (hsafe : ex = false → ∀ p ∈ fs₀, article_dir.isPrefixOf p = false) :
    (∀ p ∈ fs₀, p ∈ (pdfStageFn env st result article_dir pdf_path ex).2.fs) ∧
    ∀ d ∈ (pdfStageFn env st result article_dir pdf_path ex).2.deletions,
      d ∈ st.deletions ∨ (d = article_dir ∧ ex = false) := by
  simp only [pdfStageFn]
  split
  · exact ⟨hsub, fun d hd => Or.inl hd⟩
  · split
    · split
      · split
        · exact ⟨fun p hp => mem_download_file_fs _ _ _ _ (hsub p hp),
            fun d hd => Or.inl (by rwa [download_file_deletions] at hd)⟩
        · split
          · rename_i hex
            have hexf : ex = false := by simpa using hex
            refine ⟨fun p hp => mem_rollback_fs _ _
              (mem_download_file_fs _ _ _ _ (hsub p hp)) (hsafe hexf p hp),
              fun d hd => ?_⟩
            rw [rollback_deletions, download_file_deletions] at hd
            rcases List.mem_append.mp hd with h | h
            · exact Or.inl h
            · exact Or.inr ⟨by simpa using h, hexf⟩
          · exact ⟨fun p hp => mem_download_file_fs _ _ _ _ (hsub p hp),
              fun d hd => Or.inl (by rwa [download_file_deletions] at hd)⟩
      · exact ⟨hsub, fun d hd => Or.inl hd⟩
    · exact ⟨hsub, fun d hd => Or.inl hd⟩

theorem codeStageFn_frame (env : DlEnv) (st : DlState) (result : ScreeningResult)
    (article_dir code_zip_path : Path) (ex : Bool) (fs₀ : List Path)
    (hsub : ∀ p ∈ fs₀, p ∈ st.fs)
    (hsafe : ex = false → ∀ p ∈ fs₀, article_dir.isPrefixOf p = false) :
    (∀ p ∈ fs₀, p ∈ (codeStageFn env st result article_dir code_zip_path ex).2.fs) ∧
    ∀ d ∈ (codeStageFn env st result article_dir code_zip_path ex).2.deletions,
      d ∈ st.deletions ∨ (d = article_dir ∧ ex = false) := by
  simp only [codeStageFn]
  split
  · exact ⟨hsub, fun d hd => Or.inl hd⟩
  · split
    · split
      · split
        · exact ⟨fun p hp => mem_download_file_fs _ _ _ _ (hsub p hp),
            fun d hd => Or.inl (by rwa [download_file_deletions] at hd)⟩
        · split
          · rename_i hex
            have hexf : ex = false := by simpa using hex
            refine ⟨fun p hp => mem_rollback_fs _ _
              (mem_download_file_fs _ _ _ _ (hsub p hp)) (hsafe hexf p hp),
              fun d hd => ?_⟩
            rw [rollback_deletions, download_file_deletions] at hd
            rcases List.mem_append.mp hd with h | h
            · exact Or.inl h
            · exact Or.inr ⟨by simpa using h, hexf⟩
          · exact ⟨fun p hp => mem_download_file_fs _ _ _ _ (hsub p hp),
              fun d hd => Or.inl (by rwa [download_file_deletions] at hd)⟩
      · exact ⟨hsub, fun d hd => Or.inl hd⟩
    · exact ⟨hsub, fun d hd => Or.inl hd⟩

theorem processCandidate_frame (env : DlEnv) (journal : JournalConfig) (bd : String)
    (dr : Bool) (result : ScreeningResult) (st : DlState) (fs₀ : List Path)
    (hcl : ancestorClosed fs₀) (hsub : ∀ p ∈ fs₀, p ∈ st.fs) :
    (∀ p ∈ fs₀, p ∈ (processCandidate env journal bd dr result st).2.fs) ∧
    ∀ d ∈ (processCandidate env journal bd dr result st).2.deletions,
      d ∈ st.deletions ∨
        (d = [bd, journal.category, article_slug_of result.article.url] ∧ d ∉ fs₀) := by
  have hAnot : st.fs.contains
        [bd, journal.category, article_slug_of result.article.url] = false →
      [bd, journal.category, article_slug_of result.article.url] ∉ fs₀ := by
    intro hex hmem
    have h2 : st.fs.contains [bd, journal.category, article_slug_of result.article.url]
        = true := List.elem_iff.mpr (hsub _ hmem)
    rw [hex] at h2
    cases h2
  have hsafe : st.fs.contains
        [bd, journal.category, article_slug_of result.article.url] = false →
      ∀ p ∈ fs₀,
        List.isPrefixOf [bd, journal.category, article_slug_of result.article.url] p
          = false := by
    intro hex p hp
    by_contra h
    have hb : List.isPrefixOf [bd, journal.category, article_slug_of result.article.url] p
        = true := by
      revert h
      cases List.isPrefixOf [bd, journal.category, article_slug_of result.article.url] p <;>
        simp
    have hpre := List.isPrefixOf_iff_prefix.mp hb
    have hAmem : [bd, journal.category, article_slug_of result.article.url] ∈ fs₀ :=
      hcl p hp _ (by simp) hpre
    have h2 : st.fs.contains [bd, journal.category, article_slug_of result.article.url]
        = true := List.elem_iff.mpr (hsub _ hAmem)
    rw [hex] at h2
    cases h2
  have hstep : ∀ {dels : List Path},
      (∀ d ∈ dels, d ∈ st.deletions ∨
        (d = [bd, journal.category, article_slug_of result.article.url] ∧
          st.fs.contains [bd, journal.category, article_slug_of result.article.url]
            = false)) →
      ∀ d ∈ dels, d ∈ st.deletions ∨
        (d = [bd, journal.category, article_slug_of result.article.url] ∧ d ∉ fs₀) := by
    intro dels h d hd
    rcases h d hd with h' | ⟨rfl, hex⟩
    · exact Or.inl h'
    · exact Or.inr ⟨rfl, hAnot hex⟩
  simp only [processCandidate, List.cons_append, List.nil_append]
  split
  · -- dry_run
    exact ⟨fun p hp => List.mem_cons_of_mem _ (mem_ensure_article_dirs _ (hsub p hp)),
      fun d hd => Or.inl hd⟩
  · have h1 := pdfStageFn_frame env
      { st with fs := (ensure_article_dirs st.fs
          [bd, journal.category, article_slug_of result.article.url]) }
      result [bd, journal.category, article_slug_of result.article.url]
      [bd, journal.category, article_slug_of result.article.url, "pdf_papers", "paper.pdf"]
      (st.fs.contains [bd, journal.category, article_slug_of result.article.url]) fs₀
      (fun p hp => mem_ensure_article_dirs _ (hsub p hp)) hsafe
    split
    · -- pdf stage abandoned the candidate
      rename_i st2 heq
      rw [heq] at h1
      have h1fs : ∀ p ∈ fs₀, p ∈ st2.fs := h1.1
      have h1del : ∀ d ∈ st2.deletions, d ∈ st.deletions ∨
          (d = [bd, journal.category, article_slug_of result.article.url] ∧
            st.fs.contains [bd, journal.category, article_slug_of result.article.url]
              = false) := h1.2
      exact ⟨h1fs, hstep h1del⟩
    · rename_i pdf_status pdfManual st2 heq
      rw [heq] at h1
      have h1fs : ∀ p ∈ fs₀, p ∈ st2.fs := h1.1
      have h1del : ∀ d ∈ st2.deletions, d ∈ st.deletions ∨
          (d = [bd, journal.category, article_slug_of result.article.url] ∧
            st.fs.contains [bd, journal.category, article_slug_of result.article.url]
              = false) := h1.2
      have h2 := codeStageFn_frame env st2 result
        [bd, journal.category, article_slug_of result.article.url]
        [bd, journal.category, article_slug_of result.article.url, "code",
          repo_zip_name result.code_repo]
        (st.fs.contains [bd, journal.category, article_slug_of result.article.url]) fs₀
        h1fs hsafe
      split
      · -- code stage abandoned the candidate
        rename_i st3 heq2
        rw [heq2] at h2
        have h3fs : ∀ p ∈ fs₀, p ∈ st3.fs := h2.1
        have h3del : ∀ d ∈ st3.deletions, d ∈ st.deletions ∨
            (d = [bd, journal.category, article_slug_of result.article.url] ∧
              st.fs.contains [bd, journal.category, article_slug_of result.article.url]
                = false) := by
          intro d hd
          rcases h2.2 d hd with h' | h'
          · exact h1del d h'
          · exact Or.inr h'
        exact ⟨h3fs, hstep h3del⟩
      · rename_i code_status codeManual st3 heq2
        rw [heq2] at h2
        have h3fs : ∀ p ∈ fs₀, p ∈ st3.fs := h2.1
        have h3del : ∀ d ∈ st3.deletions, d ∈ st.deletions ∨
            (d = [bd, journal.category, article_slug_of result.article.url] ∧
              st.fs.contains [bd, journal.category, article_slug_of result.article.url]
                = false) := by
          intro d hd
          rcases h2.2 d hd with h' | h'
          · exact h1del d h'
          · exact Or.inr h'
        clear h1 h2 h1fs h1del heq heq2
        repeat' split
        all_goals first
        | -- rollback of a directory created this run
          (rename_i hex
           refine ⟨fun p hp => mem_rollback_fs _ _ (mem_esmLoop_fs _ _ _ _ _ (h3fs p hp))
             (hsafe (by simpa using hex) p hp), fun d hd => ?_⟩
           rw [rollback_deletions] at hd
           rcases List.mem_append.mp hd with h' | h'
           · rw [esmLoop_deletions] at h'
             exact hstep h3del d h'
           · have hdA : d = [bd, journal.category, article_slug_of result.article.url] := by
               simpa using h'
             exact Or.inr ⟨hdA, fun hm => hAnot (by simpa using hex) (hdA ▸ hm)⟩)
        | -- abandoned without rollback (pre-existing directory)
          (refine ⟨fun p hp => mem_esmLoop_fs _ _ _ _ _ (h3fs p hp), fun d hd => ?_⟩
           rw [esmLoop_deletions] at hd
           exact hstep h3del d hd)
        | -- record written: the metadata file is added, nothing deleted
          (refine ⟨fun p hp => List.mem_cons_of_mem _
             (mem_esmLoop_fs _ _ _ _ _ (h3fs p hp)), fun d hd => ?_⟩
           rw [esmLoop_deletions] at hd
           exact hstep h3del d hd)

/-! ## Character-level lemmas for URL normalization (C4) -/

theorem splitFirstChar_none {c : Char} :
    ∀ {l : List Char}, splitFirstChar c l = none → c ∉ l := by
  intro l
  induction l with
  | nil => intro _; simp
  | cons a rest ih =>
    intro h hmem
    by_cases hac : a = c
    · simp [splitFirstChar, hac] at h
    · cases hmatch : splitFirstChar c rest with
      | some pr =>
        obtain ⟨pre, post⟩ := pr
        simp [splitFirstChar, hac, hmatch] at h
      | none =>
        rcases List.mem_cons.mp hmem with rfl | hm
        · exact hac rfl
        · exact ih hmatch hm

theorem splitFirstChar_of_not_mem {c : Char} :
    ∀ {l : List Char}, c ∉ l → splitFirstChar c l = none := by
  intro l
  induction l with
  | nil => intro _; rfl
  | cons a rest ih =>
    intro h
    have hac : ¬ a = c := fun he => h (he ▸ List.mem_cons_self a rest)
    have hr : c ∉ rest := fun hm => h (List.mem_cons_of_mem a hm)
    simp [splitFirstChar, hac, ih hr]

theorem splitFirstChar_some {c : Char} :
    ∀ {l pre post : List Char}, splitFirstChar c l = some (pre, post) →
      l = pre ++ c :: post ∧ c ∉ pre := by
  intro l
  induction l with
  | nil => intro pre post h; simp [splitFirstChar] at h
  | cons a rest ih =>
    intro pre post h
    by_cases hac : a = c
    · simp only [splitFirstChar, if_pos hac] at h
      cases h
      subst hac
      exact ⟨rfl, by simp⟩
    · simp only [splitFirstChar, if_neg hac] at h
      cases hmatch : splitFirstChar c rest with
      | none => rw [hmatch] at h; cases h
      | some pr =>
        obtain ⟨pre', post'⟩ := pr
        rw [hmatch] at h
        cases h
        obtain ⟨hl, hc⟩ := ih hmatch
        constructor
        · rw [List.cons_append, ← hl]
        · intro hmem
          rcases List.mem_cons.mp hmem with rfl | hm
          · exact hac rfl
          · exact hc hm

theorem splitFirstSub_some {pat : List Char} :
    ∀ {l pre post : List Char}, splitFirstSub pat l = some (pre, post) →
      l = pre ++ pat ++ post := by
  intro l
  induction l with
  | nil => intro pre post h; simp [splitFirstSub] at h
  | cons a rest ih =>
    intro pre post h
    by_cases hp : pat.isPrefixOf (a :: rest) = true
    · simp only [splitFirstSub, if_pos hp] at h
      cases h
      have hpre := List.isPrefixOf_iff_prefix.mp hp
      have htake := List.prefix_iff_eq_take.mp hpre
      conv_lhs => rw [← List.take_append_drop pat.length (a :: rest)]
      rw [← htake]
      simp
    · simp only [splitFirstSub, if_neg hp] at h
      cases hmatch : splitFirstSub pat rest with
      | none => rw [hmatch] at h; cases h
      | some pr =>
        obtain ⟨pre', post'⟩ := pr
        rw [hmatch] at h
        cases h
        rw [List.cons_append, List.cons_append, ← List.cons_append, ih hmatch]
        simp

theorem splitFirstSub_of_not_contains {pat : List Char} :
    ∀ {l : List Char}, containsSub pat l = false → splitFirstSub pat l = none := by
  intro l
  induction l with
  | nil => intro _; rfl
  | cons a rest ih =>
    intro h
    simp only [containsSub, Bool.or_eq_false_iff] at h
    simp [splitFirstSub, h.1, ih h.2]

theorem replaceAllFuel_of_none {pat repl : List Char} {l : List Char}
    (h : splitFirstSub pat l = none) :
    ∀ fuel, replaceAllFuel pat repl fuel l = l := by
  intro fuel
  cases fuel with
  | zero => rfl
  | succ n => simp [replaceAllFuel, h]

theorem replaceAll_of_not_contains {pat repl l : List Char}
    (h : containsSub pat l = false) : replaceAll pat repl l = l :=
  replaceAllFuel_of_none (splitFirstSub_of_not_contains h) _

theorem mem_replaceAllFuel {pat : List Char} {d : Char} :
    ∀ (fuel : Nat) {l : List Char}, d ∈ replaceAllFuel pat [] fuel l → d ∈ l := by
  intro fuel
  induction fuel with
  | zero => intro l h; exact h
  | succ n ih =>
    intro l h
    simp only [replaceAllFuel] at h
    cases hmatch : splitFirstSub pat l with
    | none => rw [hmatch] at h; exact h
    | some pr =>
      obtain ⟨pre, post⟩ := pr
      rw [hmatch] at h
      rw [splitFirstSub_some hmatch]
      simp only [List.append_nil, List.mem_append] at h ⊢
      rcases h with h | h
      · exact Or.inl (Or.inl h)
      · exact Or.inr (ih h)

theorem mem_replaceAll {pat l : List Char} {d : Char}
    (h : d ∈ replaceAll pat [] l) : d ∈ l :=
  mem_replaceAllFuel _ h

theorem splitChar_ne_nil {c : Char} : ∀ (l : List Char), splitChar c l ≠ [] := by
  intro l
  induction l with
  | nil => simp [splitChar]
  | cons a rest ih =>
    cases hmatch : splitChar c rest with
    | nil => exact absurd hmatch ih
    | cons piece pieces =>
      by_cases hac : a = c <;> simp [splitChar, hmatch, hac]

theorem mem_of_mem_splitChar {c d : Char} :
    ∀ {l x : List Char}, x ∈ splitChar c l → d ∈ x → d ∈ l := by
  intro l
  induction l with
  | nil =>
    intro x hx hd
    simp [splitChar] at hx
    subst hx
    simp at hd
  | cons a rest ih =>
    intro x hx hd
    cases hmatch : splitChar c rest with
    | nil => exact absurd hmatch (splitChar_ne_nil rest)
    | cons piece pieces =>
      by_cases hac : a = c
      · simp only [splitChar, hmatch, if_pos hac] at hx
        rcases List.mem_cons.mp hx with rfl | hx'
        · simp at hd
        · exact List.mem_cons_of_mem a (ih (hmatch ▸ hx') hd)
      · simp only [splitChar, hmatch, if_neg hac] at hx
        rcases List.mem_cons.mp hx with rfl | hx'
        · rcases List.mem_cons.mp hd with rfl | hd'
          · exact List.mem_cons_self _ _
          · exact List.mem_cons_of_mem a
              (ih (hmatch ▸ List.mem_cons_self piece pieces) hd')
        · exact List.mem_cons_of_mem a
            (ih (hmatch ▸ List.mem_cons_of_mem piece hx') hd)

theorem not_mem_of_mem_splitChar {c : Char} :
    ∀ {l x : List Char}, x ∈ splitChar c l → c ∉ x := by
  intro l
  induction l with
  | nil =>
    intro x hx
    simp [splitChar] at hx
    subst hx
    simp
  | cons a rest ih =>
    intro x hx
    cases hmatch : splitChar c rest with
    | nil => exact absurd hmatch (splitChar_ne_nil rest)
    | cons piece pieces =>
      by_cases hac : a = c
      · simp only [splitChar, hmatch, if_pos hac] at hx
        rcases List.mem_cons.mp hx with rfl | hx'
        · simp
        · exact ih (hmatch ▸ hx')
      · simp only [splitChar, hmatch, if_neg hac] at hx
        rcases List.mem_cons.mp hx with rfl | hx'
        · intro hmem
          rcases List.mem_cons.mp hmem with rfl | hm
          · exact hac rfl
          · exact ih (hmatch ▸ List.mem_cons_self piece pieces) hm
        · exact ih (hmatch ▸ List.mem_cons_of_mem piece hx')

theorem splitChar_of_not_mem {c : Char} :
    ∀ {x : List Char}, c ∉ x → splitChar c x = [x] := by
  intro x
  induction x with
  | nil => intro _; rfl
  | cons a x' ih =>
    intro h
    have hac : ¬ a = c := fun he => h (he ▸ List.mem_cons_self a x')
    have hx' : c ∉ x' := fun hm => h (List.mem_cons_of_mem a hm)
    simp [splitChar, ih hx', hac]

theorem splitChar_append {c : Char} :
    ∀ {x : List Char} (y : List Char), c ∉ x →
      splitChar c (x ++ c :: y) = x :: splitChar c y := by
  intro x
  induction x with
  | nil =>
    intro y _
    cases hmatch : splitChar c y with
    | nil => exact absurd hmatch (splitChar_ne_nil y)
    | cons piece pieces => simp [splitChar, hmatch]
  | cons a x' ih =>
    intro y h
    have hac : ¬ a = c := fun he => h (he ▸ List.mem_cons_self a x')
    have hx' : c ∉ x' := fun hm => h (List.mem_cons_of_mem a hm)
    have hrec := ih y hx'
    cases hmatch : splitChar c (x' ++ c :: y) with
    | nil => exact absurd hmatch (splitChar_ne_nil _)
    | cons piece pieces =>
      rw [hmatch] at hrec
      cases hrec
      simp [splitChar, List.cons_append, hmatch, hac]

theorem splitFirstSub_append {pat : List Char} :
    ∀ {A pre post : List Char} (B : List Char),
      splitFirstSub pat A = some (pre, post) →
      splitFirstSub pat (A ++ B) = some (pre, post ++ B) := by
  intro A
  induction A with
  | nil => intro pre post B h; simp [splitFirstSub] at h
  | cons a A' ih =>
    intro pre post B h
    by_cases hp : pat.isPrefixOf (a :: A') = true
    · simp only [splitFirstSub, if_pos hp] at h
      cases h
      have hpre := List.isPrefixOf_iff_prefix.mp hp
      have hq : pat.isPrefixOf (a :: (A' ++ B)) = true := by
        refine List.isPrefixOf_iff_prefix.mpr ?_
        have := hpre.trans (List.prefix_append (a :: A') B)
        simpa using this
      rw [List.cons_append]
      simp only [splitFirstSub, if_pos hq]
      have hlen : pat.length ≤ (a :: A').length := hpre.length_le
      have hdrop : (a :: (A' ++ B)).drop pat.length = (a :: A').drop pat.length ++ B := by
        have h3 : ((a :: A') ++ B).drop pat.length = (a :: A').drop pat.length ++ B :=
          List.drop_append_of_le_length hlen
        simpa using h3
      rw [hdrop]
    · simp only [splitFirstSub, if_neg hp] at h
      cases hmatch : splitFirstSub pat A' with
      | none => rw [hmatch] at h; cases h
      | some pr =>
        obtain ⟨pre', post'⟩ := pr
        rw [hmatch] at h
        cases h
        have hlen : pat.length ≤ A'.length := by
          have hs := splitFirstSub_some hmatch
          rw [hs]
          simp
          omega
        have hq : ¬ pat.isPrefixOf (a :: (A' ++ B)) = true := by
          intro hq'
          apply hp
          refine List.isPrefixOf_iff_prefix.mpr ?_
          have hpre := List.isPrefixOf_iff_prefix.mp hq'
          have htake := List.prefix_iff_eq_take.mp hpre
          have hsame : (a :: (A' ++ B)).take pat.length = (a :: A').take pat.length := by
            have h2 : pat.length ≤ (a :: A').length := by simp; omega
            have h3 : ((a :: A') ++ B).take pat.length = (a :: A').take pat.length :=
              List.take_append_of_le_length h2
            simpa using h3
          exact List.prefix_iff_eq_take.mpr (htake.trans hsame)
        rw [List.cons_append]
        simp only [splitFirstSub, if_neg hq]
        rw [ih B hmatch]

theorem spanUntilAny_append {stops : List Char} :
    ∀ {A pre post : List Char} (B : List Char),
      spanUntilAny stops A = (pre, post) → post ≠ [] →
      spanUntilAny stops (A ++ B) = (pre, post ++ B) := by
  intro A
  induction A with
  | nil =>
    intro pre post B h hne
    simp [spanUntilAny] at h
    exact absurd h.2 hne
  | cons a A' ih =>
    intro pre post B h hne
    by_cases ha : a ∈ stops
    · simp only [spanUntilAny, if_pos ha] at h
      cases h
      rw [List.cons_append]
      simp [spanUntilAny, if_pos ha]
    · simp only [spanUntilAny, if_neg ha] at h
      cases hrec : spanUntilAny stops A' with
      | mk pre' post' =>
        rw [hrec] at h
        cases h
        rw [List.cons_append]
        simp only [spanUntilAny, if_neg ha]
        rw [ih B hrec hne]

theorem splitPathQueryFragment_of_clean {l : List Char}
    (h1 : '#' ∉ l) (h2 : '?' ∉ l) : splitPathQueryFragment l = (l, [], []) := by
  simp [splitPathQueryFragment, splitFirstChar_of_not_mem h1,
    splitFirstChar_of_not_mem h2]

theorem splitPathQueryFragment_path_clean (rest : List Char) :
    '?' ∉ (splitPathQueryFragment rest).1 ∧ '#' ∉ (splitPathQueryFragment rest).1 := by
  simp only [splitPathQueryFragment]
  cases hf : splitFirstChar '#' rest with
  | none =>
    have hnof := splitFirstChar_none hf
    cases hq : splitFirstChar '?' rest with
    | none => exact ⟨splitFirstChar_none hq, hnof⟩
    | some pr =>
      obtain ⟨pre, post⟩ := pr
      obtain ⟨heq, hnq⟩ := splitFirstChar_some hq
      refine ⟨hnq, fun hmem => hnof ?_⟩
      rw [heq]
      exact List.mem_append.mpr (Or.inl hmem)
  | some prf =>
    obtain ⟨noFrag, frag⟩ := prf
    obtain ⟨heqf, hnf⟩ := splitFirstChar_some hf
    cases hq : splitFirstChar '?' noFrag with
    | none => exact ⟨splitFirstChar_none hq, hnf⟩
    | some pr =>
      obtain ⟨pre, post⟩ := pr
      obtain ⟨heq, hnq⟩ := splitFirstChar_some hq
      refine ⟨hnq, fun hmem => hnf ?_⟩
      rw [heq]
      exact List.mem_append.mpr (Or.inl hmem)

theorem urlparseL_path_clean (u : List Char) :
    '?' ∉ (urlparseL u).path ∧ '#' ∉ (urlparseL u).path := by
  simp only [urlparseL]
  cases hs : splitFirstSub [':', '/', '/'] u with
  | none => exact splitPathQueryFragment_path_clean u
  | some pr =>
    obtain ⟨scheme, rest⟩ := pr
    exact splitPathQueryFragment_path_clean _

theorem normalizeGithubRepoL_shape {u r : List Char}
    (h : normalizeGithubRepoL u = some r) :
    ∃ owner repo, owner ≠ [] ∧
      '/' ∉ owner ∧ '?' ∉ owner ∧ '#' ∉ owner ∧
      '/' ∉ repo ∧ '?' ∉ repo ∧ '#' ∉ repo ∧
      r = "https://github.com/".toList ++ (owner ++ '/' :: repo) := by
  have hclean := urlparseL_path_clean u
  simp only [normalizeGithubRepoL] at h
  split at h
  · cases hparts : (splitChar '/' (urlparseL u).path).filter (fun x => x ≠ []) with
    | nil => rw [hparts] at h; cases h
    | cons owner rest =>
      cases rest with
      | nil => rw [hparts] at h; cases h
      | cons repo0 rest' =>
        rw [hparts] at h
        cases h
        have howner : owner ∈ (splitChar '/' (urlparseL u).path).filter (fun x => x ≠ []) := by
          rw [hparts]; exact List.mem_cons_self _ _
        have hrepo0 : repo0 ∈ (splitChar '/' (urlparseL u).path).filter (fun x => x ≠ []) := by
          rw [hparts]; exact List.mem_cons_of_mem _ (List.mem_cons_self _ _)
        obtain ⟨howner1, howner2⟩ := List.mem_filter.mp howner
        obtain ⟨hrepo1, _⟩ := List.mem_filter.mp hrepo0
        refine ⟨owner, replaceAll ".git".toList [] repo0, by simpa using howner2,
          not_mem_of_mem_splitChar howner1,
          fun hm => hclean.1 (mem_of_mem_splitChar howner1 hm),
          fun hm => hclean.2 (mem_of_mem_splitChar howner1 hm),
          fun hm => not_mem_of_mem_splitChar hrepo1 (mem_replaceAll hm),
          fun hm => hclean.1 (mem_of_mem_splitChar hrepo1 (mem_replaceAll hm)),
          fun hm => hclean.2 (mem_of_mem_splitChar hrepo1 (mem_replaceAll hm)),
          rfl⟩
  · cases h

theorem normalizeGithubRepoL_canon (owner repo : List Char)
    (ho : owner ≠ []) (hr : repo ≠ [])
    (ho1 : '/' ∉ owner) (ho2 : '?' ∉ owner) (ho3 : '#' ∉ owner)
    (hr1 : '/' ∉ repo) (hr2 : '?' ∉ repo) (hr3 : '#' ∉ repo) :
    normalizeGithubRepoL ("https://github.com/".toList ++ (owner ++ '/' :: repo)) =
      some ("https://github.com/".toList ++
        (owner ++ '/' :: replaceAll ".git".toList [] repo)) := by
  have hsplit0 : splitFirstSub [':', '/', '/'] "https://github.com/".toList =
      some ("https".toList, "github.com/".toList) := by decide
  have hsplit := splitFirstSub_append (owner ++ '/' :: repo) hsplit0
  have hspan0 : spanUntilAny ['/', '?', '#'] "github.com/".toList =
      ("github.com".toList, ['/']) := by decide
  have hspan := spanUntilAny_append (owner ++ '/' :: repo) hspan0 (by decide)
  have hq : '?' ∉ (['/'] ++ (owner ++ '/' :: repo)) := by
    intro hm
    rcases List.mem_append.mp hm with hm | hm
    · simp at hm
    · rcases List.mem_append.mp hm with hm | hm
      · exact ho2 hm
      · rcases List.mem_cons.mp hm with hm | hm
        · cases hm
        · exact hr2 hm
  have hf : '#' ∉ (['/'] ++ (owner ++ '/' :: repo)) := by
    intro hm
    rcases List.mem_append.mp hm with hm | hm
    · simp at hm
    · rcases List.mem_append.mp hm with hm | hm
      · exact ho3 hm
      · rcases List.mem_cons.mp hm with hm | hm
        · cases hm
        · exact hr3 hm
  have hurl : urlparseL ("https://github.com/".toList ++ (owner ++ '/' :: repo)) =
      ⟨lowerL "https".toList, "github.com".toList, ['/'] ++ (owner ++ '/' :: repo),
        [], []⟩ := by
    simp only [urlparseL, hsplit, hspan, splitPathQueryFragment_of_clean hf hq]
  have hsc : splitChar '/' (['/'] ++ (owner ++ '/' :: repo)) =
      [] :: owner :: [repo] := by
    have h1 : splitChar '/' (([] : List Char) ++ '/' :: (owner ++ '/' :: repo)) =
        [] :: splitChar '/' (owner ++ '/' :: repo) :=
      splitChar_append _ (by simp)
    have h2 : splitChar '/' (owner ++ '/' :: repo) = owner :: splitChar '/' repo :=
      splitChar_append _ ho1
    have h3 : splitChar '/' repo = [repo] := splitChar_of_not_mem hr1
    simpa [h2, h3] using h1
  have hfilter : (([] :: owner :: [repo]).filter (fun x => x ≠ [])) = [owner, repo] := by
    simp [List.filter, ho, hr]
  have hcond : lowerL "github.com".toList = "github.com".toList := by decide
  unfold normalizeGithubRepoL
  rw [hurl]
  simp only []
  rw [if_pos (Or.inl hcond)]
  rw [hsc, hfilter]
  simp [List.append_assoc]

/-- Claim C4 counterexample: normalization is not idempotent and results can
keep a `.git` suffix. Python's `replace(".git", "")` removes non-overlapping
occurrences without rescanning, so the repo segment `..gitgit` normalizes to
`.git`: the result is `https://github.com/o/.git` (which ends in `.git`),
and re-normalizing it yields `https://github.com/o/` instead. -/
theorem normalize_github_repo_not_idempotent :
    normalize_github_repo "https://github.com/o/..gitgit" =
      some "https://github.com/o/.git" ∧
    (normalize_github_repo "https://github.com/o/..gitgit").bind normalize_github_repo
      = some "https://github.com/o/" ∧
    (normalize_github_repo "https://github.com/o/..gitgit").bind normalize_github_repo
      ≠ normalize_github_repo "https://github.com/o/..gitgit" ∧
    List.isSuffixOf ".git".toList "https://github.com/o/.git".toList = true := by
  exact ⟨by decide, by decide, by decide, by decide⟩

/-- Claim C4 (amended): every successful result of `normalize_github_repo`
has the canonical form `https://github.com/` + owner + `/` + repo where the
owner and repo are single nonempty-owner path segments containing no `/`,
`?` or `#` — hence no trailing path or query — and re-normalizing the result
is a no-op whenever its repo segment is nonempty and contains no residual
`.git` occurrence. (The unconditional idempotence and no-`.git`-suffix parts
of the original claim fail; see the counterexample.) -/
theorem normalize_github_repo_canonical_and_conditionally_idempotent :
    ∀ u r, normalizeGithubRepoL u = some r →
      ∃ owner repo, owner ≠ [] ∧
        '/' ∉ owner ∧ '?' ∉ owner ∧ '#' ∉ owner ∧
        '/' ∉ repo ∧ '?' ∉ repo ∧ '#' ∉ repo ∧
        r = "https://github.com/".toList ++ (owner ++ '/' :: repo) ∧
        (repo ≠ [] → containsSub ".git".toList repo = false →
          normalizeGithubRepoL r = some r) := by
  intro u r h
  obtain ⟨owner, repo, ho, ho1, ho2, ho3, hr1, hr2, hr3, hreq⟩ :=
    normalizeGithubRepoL_shape h
  refine ⟨owner, repo, ho, ho1, ho2, ho3, hr1, hr2, hr3, hreq,
    fun hrne hnog => ?_⟩
  subst hreq
  have hc := normalizeGithubRepoL_canon owner repo ho hrne ho1 ho2 ho3 hr1 hr2 hr3
  rw [replaceAll_of_not_contains hnog] at hc
  exact hc

theorem normalize_github_repo_canonical_and_conditionally_idempotent_witness :
    normalizeGithubRepoL "https://github.com/own/repo1".toList =
      some "https://github.com/own/repo1".toList ∧
    (∃ owner repo, owner ≠ [] ∧
      '/' ∉ owner ∧ '?' ∉ owner ∧ '#' ∉ owner ∧
      '/' ∉ repo ∧ '?' ∉ repo ∧ '#' ∉ repo ∧
      "https://github.com/own/repo1".toList =
        "https://github.com/".toList ++ (owner ++ '/' :: repo) ∧
      (repo ≠ [] → containsSub ".git".toList repo = false →
        normalizeGithubRepoL "https://github.com/own/repo1".toList =
          some "https://github.com/own/repo1".toList)) := by
  refine ⟨by decide, ?_⟩
  exact normalize_github_repo_canonical_and_conditionally_idempotent
    "https://github.com/own/repo1".toList "https://github.com/own/repo1".toList (by decide)

theorem downloadGo_frame (env : DlEnv) (journal : JournalConfig) (bd : String)
    (dr : Bool) (limit : Nat) (fs₀ : List Path) (hcl : ancestorClosed fs₀) :
    ∀ (cands : List ScreeningResult) (recs : List MetaRecord) (st : DlState),
      (∀ p ∈ fs₀, p ∈ st.fs) →
      (∀ p ∈ fs₀, p ∈ (downloadGo env journal bd dr limit cands recs st).2.fs) ∧
      ∀ d ∈ (downloadGo env journal bd dr limit cands recs st).2.deletions,
        d ∈ st.deletions ∨ ∃ c ∈ cands,
          d = [bd, journal.category, article_slug_of c.article.url] ∧ d ∉ fs₀ := by
  intro cands
  induction cands with
  | nil => intro recs st hsub; exact ⟨hsub, fun d hd => Or.inl hd⟩
  | cons c rest ih =>
    intro recs st hsub
    simp only [downloadGo]
    split
    · exact ⟨hsub, fun d hd => Or.inl hd⟩
    · obtain ⟨hpf, hpd⟩ := processCandidate_frame env journal bd dr c st fs₀ hcl hsub
      split
      · rename_i r st' heq
        rw [heq] at hpf hpd
        have hpf' : ∀ p ∈ fs₀, p ∈ st'.fs := hpf
        have hpd' : ∀ d ∈ st'.deletions, d ∈ st.deletions ∨
            (d = [bd, journal.category, article_slug_of c.article.url] ∧ d ∉ fs₀) := hpd
        obtain ⟨hf, hdel⟩ := ih (recs ++ [r]) st' hpf'
        refine ⟨hf, fun d hd => ?_⟩
        rcases hdel d hd with h' | ⟨c', hc', h'⟩
        · rcases hpd' d h' with h'' | h''
          · exact Or.inl h''
          · exact Or.inr ⟨c, List.mem_cons_self _ _, h''⟩
        · exact Or.inr ⟨c', List.mem_cons_of_mem _ hc', h'⟩
      · rename_i st' heq
        rw [heq] at hpf hpd
        have hpf' : ∀ p ∈ fs₀, p ∈ st'.fs := hpf
        have hpd' : ∀ d ∈ st'.deletions, d ∈ st.deletions ∨
            (d = [bd, journal.category, article_slug_of c.article.url] ∧ d ∉ fs₀) := hpd
        obtain ⟨hf, hdel⟩ := ih recs st' hpf'
        refine ⟨hf, fun d hd => ?_⟩
        rcases hdel d hd with h' | ⟨c', hc', h'⟩
        · rcases hpd' d h' with h'' | h''
          · exact Or.inl h''
          · exact Or.inr ⟨c, List.mem_cons_self _ _, h''⟩
        · exact Or.inr ⟨c', List.mem_cons_of_mem _ hc', h'⟩

/-- Claim C7: over a `download_candidates` run started on an ancestor-closed
disk state, every pre-existing path still exists afterwards — a directory
that pre-existed the run is never deleted, whatever PDF, code-archive or
peer-review-consistency failures occur — and every rollback root is the
article directory of one of the run's own candidates and was absent from the
initial state (the directory was created this run); no other article's
directory is touched by a rollback. -/
theorem download_rollback_scoped (env : DlEnv) (journal : JournalConfig)
    (candidates : List ScreeningResult) (limit : Nat) (bd : String) (dr : Bool)
    (fs₀ : List Path) (hcl : ancestorClosed fs₀) :
    (∀ p ∈ fs₀,
      p ∈ (download_candidates env journal candidates limit bd dr ⟨fs₀, [], []⟩).2.fs) ∧
    ∀ d ∈ (download_candidates env journal candidates limit bd dr ⟨fs₀, [], []⟩).2.deletions,
      (∃ c ∈ candidates, d = [bd, journal.category, article_slug_of c.article.url]) ∧
        d ∉ fs₀ := by
  obtain ⟨hf, hd⟩ := downloadGo_frame env journal bd dr limit fs₀ hcl candidates []
    ⟨fs₀, [], []⟩ (fun p hp => hp)
  refine ⟨hf, fun d hdm => ?_⟩
  rcases hd d hdm with h | ⟨c, hc, he, hn⟩
  · simp at h
  · exact ⟨⟨c, hc, he⟩, hn⟩

theorem download_rollback_scoped_witness :
    ancestorClosed [] ∧
    (download_candidates ⟨fun _ => true, fun _ => false⟩ journalW [candW] 5 "out" false
      ⟨[], [], []⟩).2.deletions = [["out", "social_sci", "a1"]] ∧
    ∀ d ∈ (download_candidates ⟨fun _ => true, fun _ => false⟩ journalW [candW] 5 "out"
        false ⟨[], [], []⟩).2.deletions,
      (∃ c ∈ [candW], d = ["out", journalW.category, article_slug_of c.article.url]) ∧
        d ∉ ([] : List Path) := by
  have hcl : ancestorClosed [] := fun p hp => absurd hp (List.not_mem_nil p)
  have h := download_rollback_scoped ⟨fun _ => true, fun _ => false⟩ journalW [candW] 5
    "out" false [] hcl
  exact ⟨hcl, by decide, h.2⟩

end PaperNature
